import Mathlib

set_option maxRecDepth 4000
set_option linter.unusedVariables false

/-!
Shallow embedding of the 8-puzzle search core of `app.py`
(repository `ai-search-streamlit`).

A puzzle state is the Python list/tuple of 9 tile values (0 = blank),
modelled as `List Nat`.  Python dicts keyed by state tuples are modelled
as association lists looked up with `List.lookup` (insertion = prepend,
so a later binding shadows an earlier one, exactly like dict assignment).
The `heapq` priority queue is modelled as a list from which `popMin`
removes the least element in the lexicographic order Python uses on
`(f, state-tuple)` pairs; `heappush`/`heappop` maintain exactly that
multiset-with-minimum-removal behaviour.  The two `while` loops and the
`while` loop of `reconstruct_path` are modelled with an explicit fuel
parameter; running out of fuel (constructor `diverge`) models an
infinite loop of the Python code, and the fuel constants are chosen
large enough that the proofs below show fuel is never exhausted on valid
inputs.  An unhandled Python `KeyError` (dict indexing on a missing key,
possible only in `a_star_misplaced`) is modelled by the constructor
`keyError`.
-/

/-- A puzzle state: the 9-element list of tile values used by `app.py`. -/
abbrev PState := List Nat

/-- The precomputed adjacency table `MOVES` of `app.py` (grid positions
adjacent to each blank position).  Python would raise on a key outside
0..8; such keys never arise, and the catch-all returns `[]`. -/
def MOVES : Nat → List Nat
  | 0 => [1, 3]
  | 1 => [0, 2, 4]
  | 2 => [1, 5]
  | 3 => [0, 4, 6]
  | 4 => [1, 3, 5, 7]
  | 5 => [2, 4, 8]
  | 6 => [3, 7]
  | 7 => [4, 6, 8]
  | 8 => [5, 7]
  | _ => []

/-- Inner double loop of `count_inversions`: for each element, count the
later elements that are strictly smaller. -/
def invPairs : List Nat → Nat
  | [] => 0
  | x :: xs => xs.countP (fun y => decide (y < x)) + invPairs xs

/-- The function `count_inversions` of `app.py`: drop the blank, then count
out-of-order pairs. -/
def count_inversions (state : PState) : Nat :=
  invPairs (state.filter (fun x => x != 0))

/-- The function `is_solvable` of `app.py`: inversion count is even. -/
def is_solvable (state : PState) : Bool :=
  count_inversions state % 2 == 0

/-- The misplaced-tile heuristic `h_misplaced` of `app.py`. -/
def h_misplaced (state goal : PState) : Nat :=
  (List.range 9).countP
    (fun i => state.getD i 0 != goal.getD i 0 && state.getD i 0 != 0)

/-- The in-place double assignment
`neighbor[blank], neighbor[m] = neighbor[m], neighbor[blank]` of `app.py`:
both right-hand values are read from the original list. -/
def swapIdx (s : PState) (i j : Nat) : PState :=
  (s.set i (s.getD j 0)).set j (s.getD i 0)

/-- The result of one Python search call: either the pair
`(path-or-None, expanded)` that the function returns, or one of the two
abnormal outcomes an execution could in principle have (looping forever,
or an uncaught dict `KeyError`). -/
inductive PyResult where
  | diverge : PyResult
  | keyError : PyResult
  | out : Option (List PState) → Nat → PyResult
deriving DecidableEq

/-- Loop body of `reconstruct_path` of `app.py`, with fuel.  The Python
loop appends predecessors to `path` and reverses at the end; it exits
when the current state is not a key (loop condition) or its stored
predecessor is the sentinel `None` (the `break`). -/
def reconAux : Nat → List (PState × Option PState) → PState → List PState →
    Option (List PState)
  | 0, _, _, _ => none
  | fuel+1, came_from, current, path =>
    match came_from.lookup current with
    | none => some path.reverse
    | some none => some path.reverse
    | some (some prev) => reconAux fuel came_from prev (path ++ [prev])

/-- The function `reconstruct_path` of `app.py`.  Fuel `length + 1`
is exact: a run of more than `length + 1` iterations must revisit a key
of the (immutable) map, and then the Python loop would never terminate;
conversely a terminating Python run performs at most one successful
lookup per distinct key, hence at most `length + 1` iterations. -/
def reconstruct_path (came_from : List (PState × Option PState))
    (current : PState) : Option (List PState) :=
  reconAux (came_from.length + 1) came_from current [current]

/-- Neighbour loop of `bfs` of `app.py`: for each move of the blank,
build the swapped state and, if it is not yet a key of `came_from`,
record its predecessor and append it to the queue. -/
def bfsVisit (current : PState) (blank : Nat) : List Nat → List PState →
    List (PState × Option PState) → List PState × List (PState × Option PState)
  | [], queue, came_from => (queue, came_from)
  | m :: ms, queue, came_from =>
    let neighbor := swapIdx current blank m
    match came_from.lookup neighbor with
    | some _ => bfsVisit current blank ms queue came_from
    | none =>
      bfsVisit current blank ms (queue ++ [neighbor])
        ((neighbor, some current) :: came_from)

/-- Main loop of `bfs` of `app.py`, with fuel. -/
def bfsAux : Nat → List PState → List (PState × Option PState) → Nat →
    PState → PyResult
  | 0, _, _, _, _ => .diverge
  | fuel+1, queue, came_from, expanded, goal =>
    match queue with
    | [] => .out none expanded
    | current :: rest =>
      if current == goal then
        match reconstruct_path came_from current with
        | none => .diverge
        | some p => .out (some p) (expanded + 1)
      else
        let blank := List.indexOf 0 current
        let step := bfsVisit current blank (MOVES blank) rest came_from
        bfsAux fuel step.1 step.2 (expanded + 1) goal

/-- Fuel for `bfs`: the proofs below show the loop runs at most
`9! = 362880` iterations on a valid start state. -/
def bfsFuel : Nat := 362881

/-- The function `bfs` of `app.py`. -/
def bfs (start goal : PState) : PyResult :=
  bfsAux bfsFuel [start] [(start, none)] 0 goal

/-- Python's lexicographic `<=` on tuples of integers, specialised to the
state tuples compared by `heapq`. -/
def stateLe : List Nat → List Nat → Bool
  | [], _ => true
  | _ :: _, [] => false
  | a :: as, b :: bs =>
    if a < b then true else if b < a then false else stateLe as bs

/-- Python's comparison on the `(f, state)` pairs stored in the heap. -/
def entryLe (x y : Nat × PState) : Bool :=
  if x.1 < y.1 then true else if y.1 < x.1 then false else stateLe x.2 y.2

/-- Least element of a nonempty list of heap entries under `entryLe`. -/
def findMin (e : Nat × PState) : List (Nat × PState) → Nat × PState
  | [] => e
  | x :: xs => if entryLe x e then findMin x xs else findMin e xs

/-- The observable behaviour of `heapq.heappop`: remove and return a
least element of the heap (Python picks a least element under the
lexicographic order on `(f, state)` pairs). -/
def popMin (l : List (Nat × PState)) :
    Option ((Nat × PState) × List (Nat × PState)) :=
  match l with
  | [] => none
  | x :: xs =>
    let m := findMin x xs
    some (m, l.erase m)

/-- Neighbour loop of `a_star_misplaced` of `app.py`: for each move,
build the swapped state, read `g_score[current]` (a `KeyError`, modelled
by `none`, if absent — the proofs show this never happens), and relax the
neighbour if it is new or strictly improved. -/
def astarVisit (current goal : PState) (blank : Nat) : List Nat →
    List (Nat × PState) → List (PState × Option PState) → List (PState × Nat) →
    Option (List (Nat × PState) × List (PState × Option PState) × List (PState × Nat))
  | [], open_list, came_from, g_score => some (open_list, came_from, g_score)
  | m :: ms, open_list, came_from, g_score =>
    let neighbor := swapIdx current blank m
    match g_score.lookup current with
    | none => none
    | some gcur =>
      let tentative_g := gcur + 1
      match g_score.lookup neighbor with
      | none =>
        astarVisit current goal blank ms
          (open_list ++ [(tentative_g + h_misplaced neighbor goal, neighbor)])
          ((neighbor, some current) :: came_from)
          ((neighbor, tentative_g) :: g_score)
      | some gn =>
        if tentative_g < gn then
          astarVisit current goal blank ms
            (open_list ++ [(tentative_g + h_misplaced neighbor goal, neighbor)])
            ((neighbor, some current) :: came_from)
            ((neighbor, tentative_g) :: g_score)
        else
          astarVisit current goal blank ms open_list came_from g_score

/-- Main loop of `a_star_misplaced` of `app.py`, with fuel. -/
def astarAux : Nat → List (Nat × PState) → List (PState × Option PState) →
    List (PState × Nat) → Nat → PState → PyResult
  | 0, _, _, _, _, _ => .diverge
  | fuel+1, open_list, came_from, g_score, expanded, goal =>
    match popMin open_list with
    | none => .out none expanded
    | some ((_, current), opn) =>
      if current == goal then
        match reconstruct_path came_from current with
        | none => .diverge
        | some p => .out (some p) (expanded + 1)
      else
        let blank := List.indexOf 0 current
        match astarVisit current goal blank (MOVES blank) opn came_from g_score with
        | none => .keyError
        | some (o, cf, g) => astarAux fuel o cf g (expanded + 1) goal

/-- Fuel for `a_star_misplaced`: the proofs below bound the number of
loop iterations on a valid start state well below this constant. -/
def astarFuel : Nat := 10 ^ 17

/-- The function `a_star_misplaced` of `app.py`.  Python seeds the heap
with the literal entry `(0, start_t)`. -/
def a_star_misplaced (start goal : PState) : PyResult :=
  astarAux astarFuel [(0, start)] [(start, none)] [(start, 0)] 0 goal

/-- The solvability gate of the solve-button handler of `app.py`
(lines 207–213): the search is gated on `is_solvable(start_state)`
alone; the parsed goal state is passed in but not consulted. -/
def solve_gate (start_state goal_state : PState) : Bool :=
  is_solvable start_state

/-! ### Specification-side notions

The state graph of the spec: nodes are states, edges connect a state to
each state obtained by one blank/tile swap taken from the `MOVES` table.
-/

/-- All states one move away from `s` (the `for m in MOVES[blank]`
neighbours generated by both searches). -/
def pyNeighbors (s : PState) : List PState :=
  (MOVES (List.indexOf 0 s)).map (fun m => swapIdx s (List.indexOf 0 s) m)

/-- One legal move: swap the blank with a tile at an adjacent position
drawn from the `MOVES` table. -/
def StepOk (u v : PState) : Prop :=
  ∃ m, m ∈ MOVES (List.indexOf 0 u) ∧ v = swapIdx u (List.indexOf 0 u) m

instance decStepOk (u v : PState) : Decidable (StepOk u v) :=
  inferInstanceAs (Decidable (∃ m, m ∈ MOVES (List.indexOf 0 u) ∧
    v = swapIdx u (List.indexOf 0 u) m))

/-- Reachability in exactly `n` moves. -/
def ReachN : Nat → PState → PState → Prop
  | 0, s, t => t = s
  | n+1, s, t => ∃ u, u ∈ pyNeighbors s ∧ ReachN n u t

instance decReachN : ∀ n s t, Decidable (ReachN n s t)
  | 0, _, _ => inferInstanceAs (Decidable (_ = _))
  | n+1, s, t =>
    have : ∀ u, Decidable (ReachN n u t) := fun u => decReachN n u t
    inferInstanceAs (Decidable (∃ u, u ∈ pyNeighbors s ∧ ReachN n u t))

/-- Reachability by some number of blank-tile moves. -/
def Reachable (s t : PState) : Prop := ∃ n, ReachN n s t

/-- The number `d` is the minimum number of moves from `s` to `t`. -/
def IsMinDist (s t : PState) (d : Nat) : Prop :=
  ReachN d s t ∧ ∀ k, ReachN k s t → d ≤ k

/-- A valid ordered move sequence: every consecutive pair of states
differs by exactly one legal blank/tile swap. -/
def PathOk (p : List PState) : Prop := List.Chain' StepOk p

instance decPathOk : ∀ p : List PState, Decidable (PathOk p)
  | [] => isTrue List.chain'_nil
  | [a] => isTrue (List.chain'_singleton a)
  | a :: b :: rest =>
    match decStepOk a b, decPathOk (b :: rest) with
    | isTrue h1, isTrue h2 => isTrue (List.chain'_cons.mpr ⟨h1, h2⟩)
    | isFalse h1, _ => isFalse (fun hc => h1 (List.chain'_cons.mp hc).1)
    | _, isFalse h2 => isFalse (fun hc => h2 (List.chain'_cons.mp hc).2)

/-- A valid state: a permutation of `{0, ..., 8}`. -/
def ValidState (s : PState) : Prop := List.Perm s (List.range 9)

instance decValidState : ∀ s : PState, Decidable (ValidState s) :=
  fun s => List.decidablePerm s (List.range 9)

/-- The canonical goal ordering used by the spec. -/
def canonicalGoal : PState := [1, 2, 3, 4, 5, 6, 7, 8, 0]

/-- Relabeling of tile values induced by a target state `t` with the blank in
the last cell: the value that `t` holds at the cell where the canonical goal
holds `v`. -/
def stateMap (t : PState) : Nat → Nat :=
  fun v => t.getD (if v = 0 then 8 else v - 1) 0

/-- Cycle the contents of three cells: cell `i` receives the old content of
cell `j`, cell `j` that of cell `k`, and cell `k` that of cell `i`. -/
def apply3 (t : PState) (i j k : Nat) : PState :=
  ((t.set i (t.getD j 0)).set j (t.getD k 0)).set k (t.getD i 0)

/-- Concrete move sequences (computed offline by breadth-first search and
checked by `decide` below): for each pair `(i, j)` with `i < 6` and
`i < j < 8`, a path of legal board states from the canonical goal to the
state obtained from it by cycling cells `i`, `j` and `k`, where `k = 7`
unless `j = 7`, in which case `k = 6`. -/
def cyc3Witness : List ((Nat × Nat) × List PState) := [
  ((0, 1), [[1, 2, 3, 4, 5, 6, 7, 8, 0],
    [1, 2, 3, 4, 5, 0, 7, 8, 6],
    [1, 2, 3, 4, 0, 5, 7, 8, 6],
    [1, 2, 3, 4, 8, 5, 7, 0, 6],
    [1, 2, 3, 4, 8, 5, 0, 7, 6],
    [1, 2, 3, 0, 8, 5, 4, 7, 6],
    [0, 2, 3, 1, 8, 5, 4, 7, 6],
    [2, 0, 3, 1, 8, 5, 4, 7, 6],
    [2, 8, 3, 1, 0, 5, 4, 7, 6],
    [2, 8, 3, 0, 1, 5, 4, 7, 6],
    [2, 8, 3, 4, 1, 5, 0, 7, 6],
    [2, 8, 3, 4, 1, 5, 7, 0, 6],
    [2, 8, 3, 4, 0, 5, 7, 1, 6],
    [2, 8, 3, 4, 5, 0, 7, 1, 6],
    [2, 8, 3, 4, 5, 6, 7, 1, 0]]),
  ((0, 2), [[1, 2, 3, 4, 5, 6, 7, 8, 0],
    [1, 2, 3, 4, 5, 0, 7, 8, 6],
    [1, 2, 3, 4, 0, 5, 7, 8, 6],
    [1, 0, 3, 4, 2, 5, 7, 8, 6],
    [0, 1, 3, 4, 2, 5, 7, 8, 6],
    [4, 1, 3, 0, 2, 5, 7, 8, 6],
    [4, 1, 3, 2, 0, 5, 7, 8, 6],
    [4, 1, 3, 2, 8, 5, 7, 0, 6],
    [4, 1, 3, 2, 8, 5, 7, 6, 0],
    [4, 1, 3, 2, 8, 0, 7, 6, 5],
    [4, 1, 3, 2, 0, 8, 7, 6, 5],
    [4, 0, 3, 2, 1, 8, 7, 6, 5],
    [4, 3, 0, 2, 1, 8, 7, 6, 5],
    [4, 3, 8, 2, 1, 0, 7, 6, 5],
    [4, 3, 8, 2, 1, 5, 7, 6, 0],
    [4, 3, 8, 2, 1, 5, 7, 0, 6],
    [4, 3, 8, 2, 0, 5, 7, 1, 6],
    [4, 3, 8, 0, 2, 5, 7, 1, 6],
    [0, 3, 8, 4, 2, 5, 7, 1, 6],
    [3, 0, 8, 4, 2, 5, 7, 1, 6],
    [3, 2, 8, 4, 0, 5, 7, 1, 6],
    [3, 2, 8, 4, 5, 0, 7, 1, 6],
    [3, 2, 8, 4, 5, 6, 7, 1, 0]]),
  ((0, 3), [[1, 2, 3, 4, 5, 6, 7, 8, 0],
    [1, 2, 3, 4, 5, 0, 7, 8, 6],
    [1, 2, 3, 4, 0, 5, 7, 8, 6],
    [1, 2, 3, 4, 8, 5, 7, 0, 6],
    [1, 2, 3, 4, 8, 5, 0, 7, 6],
    [1, 2, 3, 0, 8, 5, 4, 7, 6],
    [0, 2, 3, 1, 8, 5, 4, 7, 6],
    [2, 0, 3, 1, 8, 5, 4, 7, 6],
    [2, 8, 3, 1, 0, 5, 4, 7, 6],
    [2, 8, 3, 0, 1, 5, 4, 7, 6],
    [2, 8, 3, 4, 1, 5, 0, 7, 6],
    [2, 8, 3, 4, 1, 5, 7, 0, 6],
    [2, 8, 3, 4, 0, 5, 7, 1, 6],
    [2, 0, 3, 4, 8, 5, 7, 1, 6],
    [0, 2, 3, 4, 8, 5, 7, 1, 6],
    [4, 2, 3, 0, 8, 5, 7, 1, 6],
    [4, 2, 3, 8, 0, 5, 7, 1, 6],
    [4, 2, 3, 8, 5, 0, 7, 1, 6],
    [4, 2, 3, 8, 5, 6, 7, 1, 0]]),
  ((0, 4), [[1, 2, 3, 4, 5, 6, 7, 8, 0],
    [1, 2, 3, 4, 5, 0, 7, 8, 6],
    [1, 2, 0, 4, 5, 3, 7, 8, 6],
    [1, 0, 2, 4, 5, 3, 7, 8, 6],
    [1, 5, 2, 4, 0, 3, 7, 8, 6],
    [1, 5, 2, 4, 8, 3, 7, 0, 6],
    [1, 5, 2, 4, 8, 3, 0, 7, 6],
    [1, 5, 2, 0, 8, 3, 4, 7, 6],
    [0, 5, 2, 1, 8, 3, 4, 7, 6],
    [5, 0, 2, 1, 8, 3, 4, 7, 6],
    [5, 2, 0, 1, 8, 3, 4, 7, 6],
    [5, 2, 3, 1, 8, 0, 4, 7, 6],
    [5, 2, 3, 1, 0, 8, 4, 7, 6],
    [5, 2, 3, 0, 1, 8, 4, 7, 6],
    [5, 2, 3, 4, 1, 8, 0, 7, 6],
    [5, 2, 3, 4, 1, 8, 7, 0, 6],
    [5, 2, 3, 4, 0, 8, 7, 1, 6],
    [5, 2, 3, 4, 8, 0, 7, 1, 6],
    [5, 2, 3, 4, 8, 6, 7, 1, 0]]),
  ((0, 5), [[1, 2, 3, 4, 5, 6, 7, 8, 0],
    [1, 2, 3, 4, 5, 6, 7, 0, 8],
    [1, 2, 3, 4, 0, 6, 7, 5, 8],
    [1, 2, 3, 4, 6, 0, 7, 5, 8],
    [1, 2, 0, 4, 6, 3, 7, 5, 8],
    [1, 0, 2, 4, 6, 3, 7, 5, 8],
    [1, 6, 2, 4, 0, 3, 7, 5, 8],
    [1, 6, 2, 4, 5, 3, 7, 0, 8],
    [1, 6, 2, 4, 5, 3, 0, 7, 8],
    [1, 6, 2, 0, 5, 3, 4, 7, 8],
    [0, 6, 2, 1, 5, 3, 4, 7, 8],
    [6, 0, 2, 1, 5, 3, 4, 7, 8],
    [6, 2, 0, 1, 5, 3, 4, 7, 8],
    [6, 2, 3, 1, 5, 0, 4, 7, 8],
    [6, 2, 3, 1, 0, 5, 4, 7, 8],
    [6, 2, 3, 0, 1, 5, 4, 7, 8],
    [6, 2, 3, 4, 1, 5, 0, 7, 8],
    [6, 2, 3, 4, 1, 5, 7, 0, 8],
    [6, 2, 3, 4, 0, 5, 7, 1, 8],
    [6, 2, 3, 4, 5, 0, 7, 1, 8],
    [6, 2, 3, 4, 5, 8, 7, 1, 0]]),
  ((0, 6), [[1, 2, 3, 4, 5, 6, 7, 8, 0],
    [1, 2, 3, 4, 5, 0, 7, 8, 6],
    [1, 2, 3, 4, 0, 5, 7, 8, 6],
    [1, 2, 3, 0, 4, 5, 7, 8, 6],
    [0, 2, 3, 1, 4, 5, 7, 8, 6],
    [2, 0, 3, 1, 4, 5, 7, 8, 6],
    [2, 4, 3, 1, 0, 5, 7, 8, 6],
    [2, 4, 3, 0, 1, 5, 7, 8, 6],
    [2, 4, 3, 7, 1, 5, 0, 8, 6],
    [2, 4, 3, 7, 1, 5, 8, 0, 6],
    [2, 4, 3, 7, 0, 5, 8, 1, 6],
    [2, 0, 3, 7, 4, 5, 8, 1, 6],
    [0, 2, 3, 7, 4, 5, 8, 1, 6],
    [7, 2, 3, 0, 4, 5, 8, 1, 6],
    [7, 2, 3, 4, 0, 5, 8, 1, 6],
    [7, 2, 3, 4, 5, 0, 8, 1, 6],
    [7, 2, 3, 4, 5, 6, 8, 1, 0]]),
  ((0, 7), [[1, 2, 3, 4, 5, 6, 7, 8, 0],
    [1, 2, 3, 4, 5, 0, 7, 8, 6],
    [1, 2, 3, 4, 0, 5, 7, 8, 6],
    [1, 2, 3, 0, 4, 5, 7, 8, 6],
    [0, 2, 3, 1, 4, 5, 7, 8, 6],
    [2, 0, 3, 1, 4, 5, 7, 8, 6],
    [2, 4, 3, 1, 0, 5, 7, 8, 6],
    [2, 4, 3, 1, 8, 5, 7, 0, 6],
    [2, 4, 3, 1, 8, 5, 0, 7, 6],
    [2, 4, 3, 0, 8, 5, 1, 7, 6],
    [2, 4, 3, 8, 0, 5, 1, 7, 6],
    [2, 0, 3, 8, 4, 5, 1, 7, 6],
    [0, 2, 3, 8, 4, 5, 1, 7, 6],
    [8, 2, 3, 0, 4, 5, 1, 7, 6],
    [8, 2, 3, 4, 0, 5, 1, 7, 6],
    [8, 2, 3, 4, 5, 0, 1, 7, 6],
    [8, 2, 3, 4, 5, 6, 1, 7, 0]]),
  ((1, 2), [[1, 2, 3, 4, 5, 6, 7, 8, 0],
    [1, 2, 3, 4, 5, 0, 7, 8, 6],
    [1, 2, 3, 4, 0, 5, 7, 8, 6],
    [1, 2, 3, 4, 8, 5, 7, 0, 6],
    [1, 2, 3, 4, 8, 5, 7, 6, 0],
    [1, 2, 3, 4, 8, 0, 7, 6, 5],
    [1, 2, 3, 4, 0, 8, 7, 6, 5],
    [1, 0, 3, 4, 2, 8, 7, 6, 5],
    [1, 3, 0, 4, 2, 8, 7, 6, 5],
    [1, 3, 8, 4, 2, 0, 7, 6, 5],
    [1, 3, 8, 4, 2, 5, 7, 6, 0],
    [1, 3, 8, 4, 2, 5, 7, 0, 6],
    [1, 3, 8, 4, 0, 5, 7, 2, 6],
    [1, 3, 8, 4, 5, 0, 7, 2, 6],
    [1, 3, 8, 4, 5, 6, 7, 2, 0]]),
  ((1, 3), [[1, 2, 3, 4, 5, 6, 7, 8, 0],
    [1, 2, 3, 4, 5, 0, 7, 8, 6],
    [1, 2, 3, 4, 0, 5, 7, 8, 6],
    [1, 2, 3, 4, 8, 5, 7, 0, 6],
    [1, 2, 3, 4, 8, 5, 0, 7, 6],
    [1, 2, 3, 0, 8, 5, 4, 7, 6],
    [1, 2, 3, 8, 0, 5, 4, 7, 6],
    [1, 0, 3, 8, 2, 5, 4, 7, 6],
    [0, 1, 3, 8, 2, 5, 4, 7, 6],
    [8, 1, 3, 0, 2, 5, 4, 7, 6],
    [8, 1, 3, 4, 2, 5, 0, 7, 6],
    [8, 1, 3, 4, 2, 5, 7, 0, 6],
    [8, 1, 3, 4, 0, 5, 7, 2, 6],
    [8, 1, 3, 0, 4, 5, 7, 2, 6],
    [0, 1, 3, 8, 4, 5, 7, 2, 6],
    [1, 0, 3, 8, 4, 5, 7, 2, 6],
    [1, 4, 3, 8, 0, 5, 7, 2, 6],
    [1, 4, 3, 8, 5, 0, 7, 2, 6],
    [1, 4, 3, 8, 5, 6, 7, 2, 0]]),
  ((1, 4), [[1, 2, 3, 4, 5, 6, 7, 8, 0],
    [1, 2, 3, 4, 5, 6, 7, 0, 8],
    [1, 2, 3, 4, 0, 6, 7, 5, 8],
    [1, 0, 3, 4, 2, 6, 7, 5, 8],
    [1, 3, 0, 4, 2, 6, 7, 5, 8],
    [1, 3, 6, 4, 2, 0, 7, 5, 8],
    [1, 3, 6, 4, 0, 2, 7, 5, 8],
    [1, 3, 6, 4, 5, 2, 7, 0, 8],
    [1, 3, 6, 4, 5, 2, 7, 8, 0],
    [1, 3, 6, 4, 5, 0, 7, 8, 2],
    [1, 3, 0, 4, 5, 6, 7, 8, 2],
    [1, 0, 3, 4, 5, 6, 7, 8, 2],
    [1, 5, 3, 4, 0, 6, 7, 8, 2],
    [1, 5, 3, 4, 8, 6, 7, 0, 2],
    [1, 5, 3, 4, 8, 6, 7, 2, 0]]),
  ((1, 5), [[1, 2, 3, 4, 5, 6, 7, 8, 0],
    [1, 2, 3, 4, 5, 0, 7, 8, 6],
    [1, 2, 3, 4, 0, 5, 7, 8, 6],
    [1, 0, 3, 4, 2, 5, 7, 8, 6],
    [1, 3, 0, 4, 2, 5, 7, 8, 6],
    [1, 3, 5, 4, 2, 0, 7, 8, 6],
    [1, 3, 5, 4, 2, 6, 7, 8, 0],
    [1, 3, 5, 4, 2, 6, 7, 0, 8],
    [1, 3, 5, 4, 0, 6, 7, 2, 8],
    [1, 3, 5, 4, 6, 0, 7, 2, 8],
    [1, 3, 0, 4, 6, 5, 7, 2, 8],
    [1, 0, 3, 4, 6, 5, 7, 2, 8],
    [1, 6, 3, 4, 0, 5, 7, 2, 8],
    [1, 6, 3, 4, 5, 0, 7, 2, 8],
    [1, 6, 3, 4, 5, 8, 7, 2, 0]]),
  ((1, 6), [[1, 2, 3, 4, 5, 6, 7, 8, 0],
    [1, 2, 3, 4, 5, 0, 7, 8, 6],
    [1, 2, 3, 4, 0, 5, 7, 8, 6],
    [1, 0, 3, 4, 2, 5, 7, 8, 6],
    [0, 1, 3, 4, 2, 5, 7, 8, 6],
    [4, 1, 3, 0, 2, 5, 7, 8, 6],
    [4, 1, 3, 7, 2, 5, 0, 8, 6],
    [4, 1, 3, 7, 2, 5, 8, 0, 6],
    [4, 1, 3, 7, 0, 5, 8, 2, 6],
    [4, 1, 3, 0, 7, 5, 8, 2, 6],
    [0, 1, 3, 4, 7, 5, 8, 2, 6],
    [1, 0, 3, 4, 7, 5, 8, 2, 6],
    [1, 7, 3, 4, 0, 5, 8, 2, 6],
    [1, 7, 3, 4, 5, 0, 8, 2, 6],
    [1, 7, 3, 4, 5, 6, 8, 2, 0]]),
  ((1, 7), [[1, 2, 3, 4, 5, 6, 7, 8, 0],
    [1, 2, 3, 4, 5, 0, 7, 8, 6],
    [1, 2, 3, 4, 0, 5, 7, 8, 6],
    [1, 0, 3, 4, 2, 5, 7, 8, 6],
    [0, 1, 3, 4, 2, 5, 7, 8, 6],
    [4, 1, 3, 0, 2, 5, 7, 8, 6],
    [4, 1, 3, 2, 0, 5, 7, 8, 6],
    [4, 1, 3, 2, 8, 5, 7, 0, 6],
    [4, 1, 3, 2, 8, 5, 0, 7, 6],
    [4, 1, 3, 0, 8, 5, 2, 7, 6],
    [0, 1, 3, 4, 8, 5, 2, 7, 6],
    [1, 0, 3, 4, 8, 5, 2, 7, 6],
    [1, 8, 3, 4, 0, 5, 2, 7, 6],
    [1, 8, 3, 4, 5, 0, 2, 7, 6],
    [1, 8, 3, 4, 5, 6, 2, 7, 0]]),
  ((2, 3), [[1, 2, 3, 4, 5, 6, 7, 8, 0],
    [1, 2, 3, 4, 5, 0, 7, 8, 6],
    [1, 2, 3, 4, 0, 5, 7, 8, 6],
    [1, 2, 3, 0, 4, 5, 7, 8, 6],
    [0, 2, 3, 1, 4, 5, 7, 8, 6],
    [2, 0, 3, 1, 4, 5, 7, 8, 6],
    [2, 4, 3, 1, 0, 5, 7, 8, 6],
    [2, 4, 3, 1, 8, 5, 7, 0, 6],
    [2, 4, 3, 1, 8, 5, 7, 6, 0],
    [2, 4, 3, 1, 8, 0, 7, 6, 5],
    [2, 4, 0, 1, 8, 3, 7, 6, 5],
    [2, 0, 4, 1, 8, 3, 7, 6, 5],
    [0, 2, 4, 1, 8, 3, 7, 6, 5],
    [1, 2, 4, 0, 8, 3, 7, 6, 5],
    [1, 2, 4, 8, 0, 3, 7, 6, 5],
    [1, 2, 4, 8, 3, 0, 7, 6, 5],
    [1, 2, 4, 8, 3, 5, 7, 6, 0],
    [1, 2, 4, 8, 3, 5, 7, 0, 6],
    [1, 2, 4, 8, 0, 5, 7, 3, 6],
    [1, 2, 4, 8, 5, 0, 7, 3, 6],
    [1, 2, 4, 8, 5, 6, 7, 3, 0]]),
  ((2, 4), [[1, 2, 3, 4, 5, 6, 7, 8, 0],
    [1, 2, 3, 4, 5, 0, 7, 8, 6],
    [1, 2, 3, 4, 0, 5, 7, 8, 6],
    [1, 2, 3, 4, 8, 5, 7, 0, 6],
    [1, 2, 3, 4, 8, 5, 7, 6, 0],
    [1, 2, 3, 4, 8, 0, 7, 6, 5],
    [1, 2, 0, 4, 8, 3, 7, 6, 5],
    [1, 0, 2, 4, 8, 3, 7, 6, 5],
    [1, 8, 2, 4, 0, 3, 7, 6, 5],
    [1, 8, 2, 4, 3, 0, 7, 6, 5],
    [1, 8, 2, 4, 3, 5, 7, 6, 0],
    [1, 8, 2, 4, 3, 5, 7, 0, 6],
    [1, 8, 2, 4, 0, 5, 7, 3, 6],
    [1, 0, 2, 4, 8, 5, 7, 3, 6],
    [1, 2, 0, 4, 8, 5, 7, 3, 6],
    [1, 2, 5, 4, 8, 0, 7, 3, 6],
    [1, 2, 5, 4, 8, 6, 7, 3, 0]]),
  ((2, 5), [[1, 2, 3, 4, 5, 6, 7, 8, 0],
    [1, 2, 3, 4, 5, 0, 7, 8, 6],
    [1, 2, 0, 4, 5, 3, 7, 8, 6],
    [1, 0, 2, 4, 5, 3, 7, 8, 6],
    [1, 5, 2, 4, 0, 3, 7, 8, 6],
    [1, 5, 2, 4, 3, 0, 7, 8, 6],
    [1, 5, 2, 4, 3, 6, 7, 8, 0],
    [1, 5, 2, 4, 3, 6, 7, 0, 8],
    [1, 5, 2, 4, 0, 6, 7, 3, 8],
    [1, 0, 2, 4, 5, 6, 7, 3, 8],
    [1, 2, 0, 4, 5, 6, 7, 3, 8],
    [1, 2, 6, 4, 5, 0, 7, 3, 8],
    [1, 2, 6, 4, 5, 8, 7, 3, 0]]),
  ((2, 6), [[1, 2, 3, 4, 5, 6, 7, 8, 0],
    [1, 2, 3, 4, 5, 6, 7, 0, 8],
    [1, 2, 3, 4, 5, 6, 0, 7, 8],
    [1, 2, 3, 0, 5, 6, 4, 7, 8],
    [1, 2, 3, 5, 0, 6, 4, 7, 8],
    [1, 2, 3, 5, 6, 0, 4, 7, 8],
    [1, 2, 0, 5, 6, 3, 4, 7, 8],
    [1, 0, 2, 5, 6, 3, 4, 7, 8],
    [1, 6, 2, 5, 0, 3, 4, 7, 8],
    [1, 6, 2, 5, 7, 3, 4, 0, 8],
    [1, 6, 2, 5, 7, 3, 4, 8, 0],
    [1, 6, 2, 5, 7, 0, 4, 8, 3],
    [1, 6, 2, 5, 0, 7, 4, 8, 3],
    [1, 0, 2, 5, 6, 7, 4, 8, 3],
    [1, 2, 0, 5, 6, 7, 4, 8, 3],
    [1, 2, 7, 5, 6, 0, 4, 8, 3],
    [1, 2, 7, 5, 0, 6, 4, 8, 3],
    [1, 2, 7, 0, 5, 6, 4, 8, 3],
    [1, 2, 7, 4, 5, 6, 0, 8, 3],
    [1, 2, 7, 4, 5, 6, 8, 0, 3],
    [1, 2, 7, 4, 5, 6, 8, 3, 0]]),
  ((2, 7), [[1, 2, 3, 4, 5, 6, 7, 8, 0],
    [1, 2, 3, 4, 5, 6, 7, 0, 8],
    [1, 2, 3, 4, 5, 6, 0, 7, 8],
    [1, 2, 3, 0, 5, 6, 4, 7, 8],
    [1, 2, 3, 5, 0, 6, 4, 7, 8],
    [1, 2, 3, 5, 6, 0, 4, 7, 8],
    [1, 2, 0, 5, 6, 3, 4, 7, 8],
    [1, 0, 2, 5, 6, 3, 4, 7, 8],
    [1, 6, 2, 5, 0, 3, 4, 7, 8],
    [1, 6, 2, 5, 3, 0, 4, 7, 8],
    [1, 6, 2, 5, 3, 8, 4, 7, 0],
    [1, 6, 2, 5, 3, 8, 4, 0, 7],
    [1, 6, 2, 5, 0, 8, 4, 3, 7],
    [1, 0, 2, 5, 6, 8, 4, 3, 7],
    [1, 2, 0, 5, 6, 8, 4, 3, 7],
    [1, 2, 8, 5, 6, 0, 4, 3, 7],
    [1, 2, 8, 5, 0, 6, 4, 3, 7],
    [1, 2, 8, 0, 5, 6, 4, 3, 7],
    [1, 2, 8, 4, 5, 6, 0, 3, 7],
    [1, 2, 8, 4, 5, 6, 3, 0, 7],
    [1, 2, 8, 4, 5, 6, 3, 7, 0]]),
  ((3, 4), [[1, 2, 3, 4, 5, 6, 7, 8, 0],
    [1, 2, 3, 4, 5, 0, 7, 8, 6],
    [1, 2, 3, 4, 0, 5, 7, 8, 6],
    [1, 2, 3, 0, 4, 5, 7, 8, 6],
    [1, 2, 3, 7, 4, 5, 0, 8, 6],
    [1, 2, 3, 7, 4, 5, 8, 0, 6],
    [1, 2, 3, 7, 0, 5, 8, 4, 6],
    [1, 2, 3, 7, 5, 0, 8, 4, 6],
    [1, 2, 3, 7, 5, 6, 8, 4, 0],
    [1, 2, 3, 7, 5, 6, 8, 0, 4],
    [1, 2, 3, 7, 5, 6, 0, 8, 4],
    [1, 2, 3, 0, 5, 6, 7, 8, 4],
    [1, 2, 3, 5, 0, 6, 7, 8, 4],
    [1, 2, 3, 5, 8, 6, 7, 0, 4],
    [1, 2, 3, 5, 8, 6, 7, 4, 0]]),
  ((3, 5), [[1, 2, 3, 4, 5, 6, 7, 8, 0],
    [1, 2, 3, 4, 5, 6, 7, 0, 8],
    [1, 2, 3, 4, 0, 6, 7, 5, 8],
    [1, 2, 3, 0, 4, 6, 7, 5, 8],
    [1, 2, 3, 7, 4, 6, 0, 5, 8],
    [1, 2, 3, 7, 4, 6, 5, 0, 8],
    [1, 2, 3, 7, 0, 6, 5, 4, 8],
    [1, 2, 3, 7, 6, 0, 5, 4, 8],
    [1, 2, 3, 7, 6, 8, 5, 4, 0],
    [1, 2, 3, 7, 6, 8, 5, 0, 4],
    [1, 2, 3, 7, 6, 8, 0, 5, 4],
    [1, 2, 3, 0, 6, 8, 7, 5, 4],
    [1, 2, 3, 6, 0, 8, 7, 5, 4],
    [1, 2, 3, 6, 5, 8, 7, 0, 4],
    [1, 2, 3, 6, 5, 8, 7, 4, 0]]),
  ((3, 6), [[1, 2, 3, 4, 5, 6, 7, 8, 0],
    [1, 2, 3, 4, 5, 0, 7, 8, 6],
    [1, 2, 3, 4, 0, 5, 7, 8, 6],
    [1, 2, 3, 0, 4, 5, 7, 8, 6],
    [1, 2, 3, 7, 4, 5, 0, 8, 6],
    [1, 2, 3, 7, 4, 5, 8, 0, 6],
    [1, 2, 3, 7, 0, 5, 8, 4, 6],
    [1, 2, 3, 7, 5, 0, 8, 4, 6],
    [1, 2, 3, 7, 5, 6, 8, 4, 0]]),
  ((3, 7), [[1, 2, 3, 4, 5, 6, 7, 8, 0],
    [1, 2, 3, 4, 5, 0, 7, 8, 6],
    [1, 2, 3, 4, 0, 5, 7, 8, 6],
    [1, 2, 3, 4, 8, 5, 7, 0, 6],
    [1, 2, 3, 4, 8, 5, 0, 7, 6],
    [1, 2, 3, 0, 8, 5, 4, 7, 6],
    [1, 2, 3, 8, 0, 5, 4, 7, 6],
    [1, 2, 3, 8, 5, 0, 4, 7, 6],
    [1, 2, 3, 8, 5, 6, 4, 7, 0]]),
  ((4, 5), [[1, 2, 3, 4, 5, 6, 7, 8, 0],
    [1, 2, 3, 4, 5, 6, 7, 0, 8],
    [1, 2, 3, 4, 0, 6, 7, 5, 8],
    [1, 2, 3, 4, 6, 0, 7, 5, 8],
    [1, 2, 3, 4, 6, 8, 7, 5, 0]]),
  ((4, 6), [[1, 2, 3, 4, 5, 6, 7, 8, 0],
    [1, 2, 3, 4, 5, 0, 7, 8, 6],
    [1, 2, 0, 4, 5, 3, 7, 8, 6],
    [1, 0, 2, 4, 5, 3, 7, 8, 6],
    [0, 1, 2, 4, 5, 3, 7, 8, 6],
    [4, 1, 2, 0, 5, 3, 7, 8, 6],
    [4, 1, 2, 7, 5, 3, 0, 8, 6],
    [4, 1, 2, 7, 5, 3, 8, 0, 6],
    [4, 1, 2, 7, 0, 3, 8, 5, 6],
    [4, 1, 2, 0, 7, 3, 8, 5, 6],
    [0, 1, 2, 4, 7, 3, 8, 5, 6],
    [1, 0, 2, 4, 7, 3, 8, 5, 6],
    [1, 2, 0, 4, 7, 3, 8, 5, 6],
    [1, 2, 3, 4, 7, 0, 8, 5, 6],
    [1, 2, 3, 4, 7, 6, 8, 5, 0]]),
  ((4, 7), [[1, 2, 3, 4, 5, 6, 7, 8, 0],
    [1, 2, 3, 4, 5, 0, 7, 8, 6],
    [1, 2, 0, 4, 5, 3, 7, 8, 6],
    [1, 0, 2, 4, 5, 3, 7, 8, 6],
    [0, 1, 2, 4, 5, 3, 7, 8, 6],
    [4, 1, 2, 0, 5, 3, 7, 8, 6],
    [4, 1, 2, 5, 0, 3, 7, 8, 6],
    [4, 1, 2, 5, 8, 3, 7, 0, 6],
    [4, 1, 2, 5, 8, 3, 0, 7, 6],
    [4, 1, 2, 0, 8, 3, 5, 7, 6],
    [0, 1, 2, 4, 8, 3, 5, 7, 6],
    [1, 0, 2, 4, 8, 3, 5, 7, 6],
    [1, 2, 0, 4, 8, 3, 5, 7, 6],
    [1, 2, 3, 4, 8, 0, 5, 7, 6],
    [1, 2, 3, 4, 8, 6, 5, 7, 0]]),
  ((5, 6), [[1, 2, 3, 4, 5, 6, 7, 8, 0],
    [1, 2, 3, 4, 5, 6, 7, 0, 8],
    [1, 2, 3, 4, 5, 6, 0, 7, 8],
    [1, 2, 3, 0, 5, 6, 4, 7, 8],
    [1, 2, 3, 5, 0, 6, 4, 7, 8],
    [1, 2, 3, 5, 7, 6, 4, 0, 8],
    [1, 2, 3, 5, 7, 6, 4, 8, 0],
    [1, 2, 3, 5, 7, 0, 4, 8, 6],
    [1, 2, 3, 5, 0, 7, 4, 8, 6],
    [1, 2, 3, 0, 5, 7, 4, 8, 6],
    [1, 2, 3, 4, 5, 7, 0, 8, 6],
    [1, 2, 3, 4, 5, 7, 8, 0, 6],
    [1, 2, 3, 4, 5, 7, 8, 6, 0]]),
  ((5, 7), [[1, 2, 3, 4, 5, 6, 7, 8, 0],
    [1, 2, 3, 4, 5, 6, 7, 0, 8],
    [1, 2, 3, 4, 5, 6, 0, 7, 8],
    [1, 2, 3, 0, 5, 6, 4, 7, 8],
    [1, 2, 3, 5, 0, 6, 4, 7, 8],
    [1, 2, 3, 5, 6, 0, 4, 7, 8],
    [1, 2, 3, 5, 6, 8, 4, 7, 0],
    [1, 2, 3, 5, 6, 8, 4, 0, 7],
    [1, 2, 3, 5, 0, 8, 4, 6, 7],
    [1, 2, 3, 0, 5, 8, 4, 6, 7],
    [1, 2, 3, 4, 5, 8, 0, 6, 7],
    [1, 2, 3, 4, 5, 8, 6, 0, 7],
    [1, 2, 3, 4, 5, 8, 6, 7, 0]])
]

/-! ### Proof-side definitions: invariants and measures -/

/-- Well-formedness of a predecessor map: `start` is bound to the sentinel,
and every other bound state has a bound predecessor one legal move away
whose ghost depth is strictly smaller. -/
def ChainInv (start : PState) (dep : PState → Nat)
    (cf : List (PState × Option PState)) : Prop :=
  cf.lookup start = some none ∧
  ∀ s v, cf.lookup s = some v → s ≠ start →
    ∃ p, v = some p ∧ (cf.lookup p).isSome ∧ StepOk p s ∧ dep p < dep s

/-- The loop invariant of `bfs`: `dep` is a ghost assignment of depths,
`d` the depth of the queue's front layer. -/
structure BfsInv (start goal : PState) (dep : PState → Nat) (d : Nat)
    (queue : List PState) (cf : List (PState × Option PState)) : Prop where
  chain : ChainInv start dep cf
  keys_nodup : (cf.map Prod.fst).Nodup
  dep_bound : ∀ s, (cf.lookup s).isSome → dep s + 1 ≤ cf.length
  dep_min : ∀ s, (cf.lookup s).isSome → IsMinDist start s (dep s)
  keys_perm : ∀ s, (cf.lookup s).isSome → s.Perm start
  queue_key : ∀ s ∈ queue, (cf.lookup s).isSome
  queue_nodup : queue.Nodup
  layer : ∃ A B, queue = A ++ B ∧ (∀ s ∈ A, dep s = d) ∧ ∀ s ∈ B, dep s = d + 1
  closed : ∀ s, (cf.lookup s).isSome → s ∉ queue →
    ∀ t ∈ pyNeighbors s, (cf.lookup t).isSome
  found_all : ∀ k s, ReachN k start s → k ≤ d → (cf.lookup s).isSome
  goal_q : (cf.lookup goal).isSome → goal ∈ queue

/-- The number of distinct states `9!` bounding the reachable state space. -/
def npuz : Nat := 362880

/-- State `s` has an entry in the open list at most its current
`f`-value — the A* invariant for states that may still need expansion. -/
def GoodAt (o : List (Nat × PState)) (goal s : PState) (g : Nat) : Prop :=
  ∃ f, (f, s) ∈ o ∧ f ≤ g + h_misplaced s goal

/-- Ghost depth for the A* predecessor chain: the recorded `g` value. -/
def gdep (gs : List (PState × Nat)) (s : PState) : Nat :=
  (gs.lookup s).getD 0

/-- The loop invariant of `a_star_misplaced`. -/
structure AstarInv (start goal : PState) (o : List (Nat × PState))
    (cf : List (PState × Option PState)) (gs : List (PState × Nat)) : Prop where
  start_g : gs.lookup start = some 0
  keys_iff : ∀ s, (gs.lookup s).isSome ↔ (cf.lookup s).isSome
  chain : ChainInv start (gdep gs) cf
  g_bound : ∀ s g, gs.lookup s = some g → g + 1 ≤ cf.length
  g_lt : ∀ s g, gs.lookup s = some g → g < ((gs.map Prod.fst).dedup).length
  keys_perm : ∀ s, (gs.lookup s).isSome → s.Perm start
  o_g : ∀ f s, (f, s) ∈ o → ∃ g, gs.lookup s = some g ∧ g ≤ f
  relax : ∀ s g, gs.lookup s = some g → GoodAt o goal s g ∨
    ∀ t ∈ pyNeighbors s, ∃ gt, gs.lookup t = some gt ∧ gt ≤ g + 1
  goal_open : (gs.lookup goal).isSome → ∃ f, (f, goal) ∈ o

/-- The A* invariant during one expansion: state `current` has been
popped, so it is exempt from the open-or-relaxed obligation until its
neighbour loop finishes. -/
structure AstarMid (start goal current : PState) (o : List (Nat × PState))
    (cf : List (PState × Option PState)) (gs : List (PState × Nat)) : Prop where
  start_g : gs.lookup start = some 0
  keys_iff : ∀ s, (gs.lookup s).isSome ↔ (cf.lookup s).isSome
  chain : ChainInv start (gdep gs) cf
  g_bound : ∀ s g, gs.lookup s = some g → g + 1 ≤ cf.length
  g_lt : ∀ s g, gs.lookup s = some g → g < ((gs.map Prod.fst).dedup).length
  keys_perm : ∀ s, (gs.lookup s).isSome → s.Perm start
  o_g : ∀ f s, (f, s) ∈ o → ∃ g, gs.lookup s = some g ∧ g ≤ f
  relax2 : ∀ s g, gs.lookup s = some g → s ≠ current → GoodAt o goal s g ∨
    ∀ t ∈ pyNeighbors s, ∃ gt, gs.lookup t = some gt ∧ gt ≤ g + 1
  goal_open : (gs.lookup goal).isSome → ∃ f, (f, goal) ∈ o

/-- Sum of the recorded `g` values over the distinct keys of `g_score`. -/
def gSum (gs : List (PState × Nat)) : Nat :=
  (((gs.map Prod.fst).dedup).map (gdep gs)).sum

/-- Potential that strictly decreases at every push of `a_star_misplaced`. -/
def astarPhi (gs : List (PState × Nat)) : Nat :=
  npuz * (npuz - ((gs.map Prod.fst).dedup).length) + gSum gs

/-- Termination measure for the `a_star_misplaced` loop. -/
def astarMeasure (o : List (Nat × PState)) (gs : List (PState × Nat)) : Nat :=
  (npuz + 1) * astarPhi gs + o.length

/-! ### Basic lemmas: association-list lookup -/

/-- Lookup in a cons-cell, stated with propositional equality. -/
theorem lookup_cons_eq {β : Type} (k s : PState) (v : β) (l : List (PState × β)) :
    List.lookup s ((k, v) :: l) = if s = k then some v else List.lookup s l := by
  rw [List.lookup_cons]
  by_cases h : s = k
  · simp [h]
  · have : (s == k) = false := beq_eq_false_iff_ne.mpr h
    simp [this, h]

theorem lookup_isSome_iff {β : Type} (l : List (PState × β)) (s : PState) :
    (l.lookup s).isSome ↔ s ∈ l.map Prod.fst := by
  induction l with
  | nil => simp [List.lookup]
  | cons kv rest ih =>
    obtain ⟨k, v⟩ := kv
    rw [lookup_cons_eq]
    by_cases h : s = k
    · simp [h]
    · simp [h, ih]

theorem lookup_eq_none_iff {β : Type} (l : List (PState × β)) (s : PState) :
    l.lookup s = none ↔ s ∉ l.map Prod.fst := by
  rw [← lookup_isSome_iff]
  cases l.lookup s <;> simp

/-! ### Basic lemmas: the heap order and `popMin` -/

theorem stateLe_total (a b : List Nat) : stateLe a b = true ∨ stateLe b a = true := by
  induction a generalizing b with
  | nil => left; rfl
  | cons x xs ih =>
    cases b with
    | nil => right; rfl
    | cons y ys =>
      rcases Nat.lt_trichotomy x y with h | h | h
      · left; simp [stateLe, h]
      · subst h
        rcases ih ys with h' | h'
        · left; simp [stateLe, h']
        · right; simp [stateLe, h']
      · right; simp [stateLe, h, Nat.not_lt.mpr (Nat.le_of_lt h)]

theorem stateLe_trans {a b c : List Nat} (hab : stateLe a b = true)
    (hbc : stateLe b c = true) : stateLe a c = true := by
  induction a generalizing b c with
  | nil => rfl
  | cons x xs ih =>
    cases b with
    | nil => simp [stateLe] at hab
    | cons y ys =>
      cases c with
      | nil => simp [stateLe] at hbc
      | cons z zs =>
        simp only [stateLe] at hab hbc ⊢
        rcases Nat.lt_trichotomy x y with h1 | h1 | h1
        · rcases Nat.lt_trichotomy y z with h2 | h2 | h2
          · simp [Nat.lt_trans h1 h2]
          · subst h2; simp [h1]
          · simp [h2, Nat.not_lt.mpr (Nat.le_of_lt h2)] at hbc
        · subst h1
          rcases Nat.lt_trichotomy x z with h2 | h2 | h2
          · simp [h2]
          · subst h2
            simp only [Nat.lt_irrefl, if_false] at hab hbc ⊢
            exact ih hab hbc
          · simp [h2, Nat.not_lt.mpr (Nat.le_of_lt h2)] at hbc
        · simp [h1, Nat.not_lt.mpr (Nat.le_of_lt h1)] at hab

theorem entryLe_total (x y : Nat × PState) :
    entryLe x y = true ∨ entryLe y x = true := by
  unfold entryLe
  rcases Nat.lt_trichotomy x.1 y.1 with h | h | h
  · left; simp [h]
  · rw [h]
    simp only [Nat.lt_irrefl, if_false]
    exact stateLe_total x.2 y.2
  · right; simp [h]

theorem entryLe_trans {x y z : Nat × PState} (hxy : entryLe x y = true)
    (hyz : entryLe y z = true) : entryLe x z = true := by
  unfold entryLe at hxy hyz ⊢
  rcases Nat.lt_trichotomy x.1 y.1 with h1 | h1 | h1
  · rcases Nat.lt_trichotomy y.1 z.1 with h2 | h2 | h2
    · simp [Nat.lt_trans h1 h2]
    · rw [← h2]; simp [h1]
    · simp [h2, Nat.not_lt.mpr (Nat.le_of_lt h2)] at hyz
  · rw [h1]
    rcases Nat.lt_trichotomy y.1 z.1 with h2 | h2 | h2
    · simp [h2]
    · rw [h2]
      simp only [Nat.lt_irrefl, if_false]
      rw [h1] at hxy
      rw [h2] at hyz
      simp only [Nat.lt_irrefl, if_false] at hxy hyz
      exact stateLe_trans hxy hyz
    · simp [h2, Nat.not_lt.mpr (Nat.le_of_lt h2)] at hyz
  · simp [h1, Nat.not_lt.mpr (Nat.le_of_lt h1)] at hxy

theorem entryLe_fst {x y : Nat × PState} (h : entryLe x y = true) : x.1 ≤ y.1 := by
  unfold entryLe at h
  rcases Nat.lt_trichotomy x.1 y.1 with h1 | h1 | h1
  · exact Nat.le_of_lt h1
  · exact Nat.le_of_eq h1
  · simp [h1, Nat.not_lt.mpr (Nat.le_of_lt h1)] at h

theorem findMin_mem (e : Nat × PState) (l : List (Nat × PState)) :
    findMin e l ∈ e :: l := by
  induction l generalizing e with
  | nil => simp [findMin]
  | cons x xs ih =>
    unfold findMin
    by_cases h : entryLe x e = true
    · simp only [h, if_true]
      have h' := ih x
      simp only [List.mem_cons] at h' ⊢
      tauto
    · simp only [h, if_false]
      have h' := ih e
      simp only [List.mem_cons] at h' ⊢
      tauto

theorem entryLe_refl (x : Nat × PState) : entryLe x x = true := by
  rcases entryLe_total x x with h | h <;> exact h

theorem findMin_le (e : Nat × PState) (l : List (Nat × PState)) :
    ∀ y ∈ e :: l, entryLe (findMin e l) y = true := by
  induction l generalizing e with
  | nil =>
    intro y hy
    simp only [List.mem_cons, List.not_mem_nil, or_false] at hy
    subst hy
    simp only [findMin]
    exact entryLe_refl y
  | cons x xs ih =>
    intro y hy
    simp only [List.mem_cons] at hy
    unfold findMin
    by_cases h : entryLe x e = true
    · simp only [h, if_true]
      rcases hy with hy | hy | hy
      · subst hy
        exact entryLe_trans (ih x x (by simp)) h
      · exact ih x y (by simp [hy])
      · exact ih x y (by simp [hy])
    · simp only [h, if_false]
      have hex : entryLe e x = true := by
        rcases entryLe_total x e with h' | h'
        · exact absurd h' h
        · exact h'
      rcases hy with hy | hy | hy
      · subst hy; exact ih y y (by simp)
      · subst hy
        exact entryLe_trans (ih e e (by simp)) hex
      · exact ih e y (by simp [hy])

theorem popMin_eq_none {l : List (Nat × PState)} :
    popMin l = none ↔ l = [] := by
  cases l <;> simp [popMin]

theorem popMin_spec {l : List (Nat × PState)} {m : Nat × PState}
    {rest : List (Nat × PState)} (h : popMin l = some (m, rest)) :
    m ∈ l ∧ rest = l.erase m ∧ ∀ y ∈ l, entryLe m y = true := by
  cases l with
  | nil => simp [popMin] at h
  | cons x xs =>
    simp only [popMin, Option.some.injEq, Prod.mk.injEq] at h
    obtain ⟨hm, hrest⟩ := h
    subst hm
    refine ⟨findMin_mem x xs, hrest.symm, findMin_le x xs⟩

/-! ### Basic lemmas: swapping and valid states -/

theorem length_swapIdx (s : PState) (i j : Nat) :
    (swapIdx s i j).length = s.length := by
  simp [swapIdx]

theorem getD_swapIdx (s : PState) {i j : Nat} (hi : i < s.length)
    (hj : j < s.length) (r : Nat) :
    (swapIdx s i j).getD r 0 =
      if r = j then s.getD i 0 else if r = i then s.getD j 0 else s.getD r 0 := by
  unfold swapIdx
  by_cases hrj : r = j
  · subst hrj
    rw [if_pos rfl, List.getD_eq_getElem?_getD,
      List.getElem?_set_self (by simpa using hj)]
    simp
  · rw [if_neg hrj, List.getD_eq_getElem?_getD,
      List.getElem?_set_ne (fun h => hrj h.symm)]
    by_cases hri : r = i
    · subst hri
      rw [if_pos rfl, List.getElem?_set_self (by simpa using hi)]
      simp [List.getD_eq_getElem?_getD]
    · rw [if_neg hri, List.getElem?_set_ne (fun h => hri h.symm),
        List.getD_eq_getElem?_getD]

theorem swapIdx_perm {s : PState} {i j : Nat} (hi : i < s.length)
    (hj : j < s.length) : (swapIdx s i j).Perm s := by
  have hswap : swapIdx s i j = (s.set i s[j]).set j s[i] := by
    unfold swapIdx
    rw [List.getD_eq_getElem s 0 hj, List.getD_eq_getElem s 0 hi]
  rw [hswap, List.perm_iff_count]
  intro a
  have hlen2 : j < (s.set i s[j]).length := by simpa using hj
  have c1 := List.count_set s[i] a (s.set i s[j]) j hlen2
  have c2 := List.count_set s[j] a s i hi
  have c3 : (s.set i s[j])[j] = s[j] := by
    rw [List.getElem_set]
    by_cases h : i = j
    · rw [if_pos h]
    · rw [if_neg h]
  rw [c3] at c1
  have hcount : (if (s[i] == a) = true then 1 else 0) ≤ List.count a s := by
    by_cases h : (s[i] == a) = true
    · rw [if_pos h]
      have : a ∈ s := by
        have := beq_iff_eq.mp h
        rw [← this]
        exact List.getElem_mem hi
      exact List.count_pos_iff.mpr this
    · rw [if_neg h]; exact Nat.zero_le _
  by_cases h1 : (s[i] == a) = true <;> by_cases h2 : (s[j] == a) = true <;>
    simp only [h1, h2, if_true, if_false] at c1 c2 hcount ⊢ <;> omega

theorem valid_length {s : PState} (h : ValidState s) : s.length = 9 := by
  have := h.length_eq
  simpa using this

theorem valid_nodup {s : PState} (h : ValidState s) : s.Nodup :=
  h.symm.nodup (List.nodup_range 9)

theorem valid_mem_iff {s : PState} (h : ValidState s) (x : Nat) :
    x ∈ s ↔ x < 9 := by
  rw [h.mem_iff, List.mem_range]

theorem valid_blank_lt {s : PState} (h : ValidState s) :
    List.indexOf 0 s < 9 := by
  have h0 : (0 : Nat) ∈ s := (valid_mem_iff h 0).mpr (by omega)
  have := List.indexOf_lt_length.mpr h0
  rwa [valid_length h] at this

theorem valid_getD_blank {s : PState} (h : ValidState s) :
    s.getD (List.indexOf 0 s) 0 = 0 := by
  have h0 : (0 : Nat) ∈ s := (valid_mem_iff h 0).mpr (by omega)
  have hlt := List.indexOf_lt_length.mpr h0
  rw [List.getD_eq_getElem s 0 hlt]
  exact List.getElem_indexOf hlt

theorem valid_getD_ne_blank {s : PState} (h : ValidState s) {r : Nat}
    (hr : r < 9) (hne : r ≠ List.indexOf 0 s) : s.getD r 0 ≠ 0 := by
  intro h0
  have h0m : (0 : Nat) ∈ s := (valid_mem_iff h 0).mpr (by omega)
  have hlt := List.indexOf_lt_length.mpr h0m
  have hrl : r < s.length := by rw [valid_length h]; exact hr
  rw [List.getD_eq_getElem s 0 hrl] at h0
  have hidx : s[List.indexOf 0 s] = 0 := List.getElem_indexOf hlt
  have : r = List.indexOf 0 s :=
    ((valid_nodup h).getElem_inj_iff).mp (h0.trans hidx.symm)
  exact hne this

/-! ### Basic lemmas: the move table and single moves -/

theorem MOVES_lt {b m : Nat} (h : m ∈ MOVES b) : m < 9 := by
  unfold MOVES at h
  split at h <;> simp_all <;> omega

theorem MOVES_ne {b m : Nat} (h : m ∈ MOVES b) : m ≠ b := by
  unfold MOVES at h
  split at h <;> simp_all <;> omega

theorem mem_pyNeighbors {s v : PState} : v ∈ pyNeighbors s ↔ StepOk s v := by
  unfold pyNeighbors StepOk
  rw [List.mem_map]
  constructor
  · rintro ⟨m, hm, rfl⟩
    exact ⟨m, hm, rfl⟩
  · rintro ⟨m, hm, rfl⟩
    exact ⟨m, hm, rfl⟩

theorem stepOk_valid {s v : PState} (h : StepOk s v) (hv : ValidState s) :
    ValidState v := by
  obtain ⟨m, hm, rfl⟩ := h
  have h1 : List.indexOf 0 s < s.length := by
    rw [valid_length hv]; exact valid_blank_lt hv
  have h2 : m < s.length := by
    rw [valid_length hv]; exact MOVES_lt hm
  exact (swapIdx_perm h1 h2).trans hv

theorem stepOk_ne {s v : PState} (hv : ValidState s) (h : StepOk s v) : v ≠ s := by
  obtain ⟨m, hm, rfl⟩ := h
  intro heq
  have h1 : List.indexOf 0 s < s.length := by
    rw [valid_length hv]; exact valid_blank_lt hv
  have h2 : m < s.length := by
    rw [valid_length hv]; exact MOVES_lt hm
  have hgd := getD_swapIdx s h1 h2 (List.indexOf 0 s)
  rw [if_neg (Ne.symm (MOVES_ne hm)), if_pos rfl] at hgd
  have hne := valid_getD_ne_blank hv (MOVES_lt hm) (MOVES_ne hm)
  rw [heq, valid_getD_blank hv] at hgd
  exact hne hgd.symm

/-! ### Basic lemmas: reachability -/

theorem reachN_trans {a b : Nat} {s u t : PState} (h1 : ReachN a s u)
    (h2 : ReachN b u t) : ReachN (a + b) s t := by
  induction a generalizing s with
  | zero =>
    have : u = s := h1
    subst this
    simpa using h2
  | succ n ih =>
    obtain ⟨w, hw, hr⟩ := h1
    rw [Nat.succ_add]
    exact ⟨w, hw, ih hr⟩

theorem reachN_step {s v : PState} (h : StepOk s v) : ReachN 1 s v :=
  ⟨v, mem_pyNeighbors.mpr h, rfl⟩

theorem reachN_valid {n : Nat} {s t : PState} (h : ReachN n s t)
    (hv : ValidState s) : ValidState t := by
  induction n generalizing s with
  | zero =>
    have : t = s := h
    subst this; exact hv
  | succ n ih =>
    obtain ⟨w, hw, hr⟩ := h
    exact ih hr (stepOk_valid (mem_pyNeighbors.mp hw) hv)

theorem reachable_dist {s t : PState} (h : Reachable s t) :
    ∃ d, IsMinDist s t d :=
  ⟨Nat.find h, Nat.find_spec h, fun k hk => Nat.find_min' h hk⟩

theorem reachN_of_path : ∀ {p : List PState} {s t : PState}, PathOk p →
    p.head? = some s → p.getLast? = some t → ReachN (p.length - 1) s t := by
  intro p
  induction p with
  | nil => intro s t _ h; simp at h
  | cons x rest ih =>
    intro s t hc hh hl
    cases rest with
    | nil =>
      simp at hh hl
      subst hh; subst hl
      rfl
    | cons y rest' =>
      unfold PathOk at hc
      rw [List.chain'_cons] at hc
      simp only [List.head?_cons, Option.some.injEq] at hh
      subst hh
      rw [List.getLast?_cons_cons] at hl
      have hr := @ih y t hc.2 rfl hl
      have : (y :: rest').length - 1 + 1 = (x :: y :: rest').length - 1 := by
        simp
      rw [← this]
      exact ⟨y, mem_pyNeighbors.mpr hc.1, hr⟩

/-! ### Basic lemmas: the misplaced-tile heuristic -/

theorem h_misplaced_self (s : PState) : h_misplaced s s = 0 := by
  unfold h_misplaced
  rw [List.countP_eq_zero]
  intro i _
  simp

theorem countP_le_countP_succ {p q : Nat → Bool} {a : Nat} :
    ∀ {l : List Nat}, l.Nodup → (∀ x ∈ l, x ≠ a → p x = true → q x = true) →
    l.countP p ≤ l.countP q + 1 := by
  intro l
  induction l with
  | nil => intro _ _; simp
  | cons x xs ih =>
    intro hnd h
    rw [List.countP_cons, List.countP_cons]
    rw [List.nodup_cons] at hnd
    have hifp : (if p x = true then 1 else 0) ≤ 1 := by
      by_cases hp : p x = true
      · rw [if_pos hp]
      · rw [if_neg hp]; omega
    by_cases hxa : x = a
    · subst hxa
      have hpt : xs.countP p ≤ xs.countP q :=
        List.countP_mono_left (fun y hy hp => h y (by simp [hy])
          (fun hya => hnd.1 (hya ▸ hy)) hp)
      omega
    · have hx := h x (by simp) hxa
      have ihx := ih hnd.2 (fun y hy hya hp => h y (by simp [hy]) hya hp)
      by_cases hp : p x = true
      · have hq := hx hp
        rw [if_pos hp, if_pos hq]
        omega
      · rw [if_neg hp]
        have hifq : (0 : Nat) ≤ if q x = true then 1 else 0 := Nat.zero_le _
        omega

theorem h_step {u v goal : PState} (hv : ValidState u) (h : StepOk u v) :
    h_misplaced u goal ≤ h_misplaced v goal + 1 := by
  obtain ⟨m, hm, rfl⟩ := h
  have h1 : List.indexOf 0 u < u.length := by
    rw [valid_length hv]; exact valid_blank_lt hv
  have h2 : m < u.length := by
    rw [valid_length hv]; exact MOVES_lt hm
  unfold h_misplaced
  apply countP_le_countP_succ (List.nodup_range 9)
  intro i hi him hPu
  simp only [Bool.and_eq_true, bne_iff_ne] at hPu ⊢
  obtain ⟨hP1, hP2⟩ := hPu
  have hib : i ≠ List.indexOf 0 u := by
    intro hh
    rw [hh, valid_getD_blank hv] at hP2
    exact hP2 rfl
  have hgd := getD_swapIdx u h1 h2 i
  rw [if_neg him, if_neg hib] at hgd
  rw [hgd]
  exact ⟨hP1, hP2⟩

theorem h_le_reachN {goal : PState} : ∀ {n : Nat} {s : PState},
    ReachN n s goal → ValidState s → h_misplaced s goal ≤ n := by
  intro n
  induction n with
  | zero =>
    intro s h hv
    have : goal = s := h
    subst this
    rw [h_misplaced_self]
  | succ n ih =>
    intro s h hv
    obtain ⟨u, hu, hr⟩ := h
    have hst := mem_pyNeighbors.mp hu
    have := @h_step s u goal hv hst
    have := ih hr (stepOk_valid hst hv)
    omega

/-! ### Reconstruction of the predecessor chain -/

theorem chain_reach {start : PState} {dep : PState → Nat}
    {cf : List (PState × Option PState)} (hc : ChainInv start dep cf) :
    ∀ n s, dep s ≤ n → (cf.lookup s).isSome → ∃ k, k ≤ dep s ∧ ReachN k start s := by
  intro n
  induction n with
  | zero =>
    intro s hd hs
    by_cases hst : s = start
    · subst hst; exact ⟨0, Nat.zero_le _, rfl⟩
    · obtain ⟨v, hv⟩ := Option.isSome_iff_exists.mp hs
      obtain ⟨p, _, _, _, hdp⟩ := hc.2 s v hv hst
      omega
  | succ n ih =>
    intro s hd hs
    by_cases hst : s = start
    · subst hst; exact ⟨0, Nat.zero_le _, rfl⟩
    · obtain ⟨v, hv⟩ := Option.isSome_iff_exists.mp hs
      obtain ⟨p, hveq, hps, hstep, hdp⟩ := hc.2 s v hv hst
      obtain ⟨k, hk, hr⟩ := ih p (by omega) hps
      exact ⟨k + 1, by omega, reachN_trans hr (reachN_step hstep)⟩

theorem recon_spec {start : PState} {dep : PState → Nat}
    {cf : List (PState × Option PState)} (hc : ChainInv start dep cf) :
    ∀ n s, dep s ≤ n → (cf.lookup s).isSome → ∀ fuel, dep s + 1 ≤ fuel → ∀ acc,
    ∃ w, reconAux fuel cf s acc = some (w ++ acc.reverse) ∧
      PathOk (w ++ [s]) ∧ (w ++ [s]).head? = some start ∧ w.length ≤ dep s := by
  intro n
  induction n with
  | zero =>
    intro s hd hs fuel hf acc
    by_cases hst : s = start
    · subst hst
      cases fuel with
      | zero => omega
      | succ f =>
        refine ⟨[], ?_, List.chain'_singleton _, rfl, Nat.zero_le _⟩
        simp only [reconAux, hc.1, List.nil_append]
    · obtain ⟨v, hv⟩ := Option.isSome_iff_exists.mp hs
      obtain ⟨p, _, _, _, hdp⟩ := hc.2 s v hv hst
      omega
  | succ n ih =>
    intro s hd hs fuel hf acc
    by_cases hst : s = start
    · subst hst
      cases fuel with
      | zero => omega
      | succ f =>
        refine ⟨[], ?_, List.chain'_singleton _, rfl, Nat.zero_le _⟩
        simp only [reconAux, hc.1, List.nil_append]
    · obtain ⟨v, hv⟩ := Option.isSome_iff_exists.mp hs
      obtain ⟨p, hveq, hps, hstep, hdp⟩ := hc.2 s v hv hst
      subst hveq
      cases fuel with
      | zero => omega
      | succ f =>
        obtain ⟨w', he', hp', hh', hl'⟩ :=
          ih p (by omega) hps f (by omega) (acc ++ [p])
        refine ⟨w' ++ [p], ?_, ?_, ?_, ?_⟩
        · simp only [reconAux, hv]
          rw [he']
          congr 1
          rw [List.reverse_append]
          simp
        · apply List.Chain'.append hp' (List.chain'_singleton s)
          intro x hx y hy
          rw [List.getLast?_concat] at hx
          simp only [List.head?_cons, Option.mem_def, Option.some.injEq] at hx hy
          subst hx; subst hy
          exact hstep
        · rw [List.append_assoc, List.head?_append]
          rw [List.head?_append] at hh'
          cases hw' : w'.head? with
          | some z => rw [hw'] at hh'; simpa [hw'] using hh'
          | none => rw [hw'] at hh'; simpa [hw'] using hh'
        · simp only [List.length_append, List.length_singleton]
          omega

theorem reconstruct_spec {start : PState} {dep : PState → Nat}
    {cf : List (PState × Option PState)} {s : PState}
    (hc : ChainInv start dep cf) (hs : (cf.lookup s).isSome)
    (hb : dep s ≤ cf.length) :
    ∃ p, reconstruct_path cf s = some p ∧ PathOk p ∧ p.head? = some start ∧
      p.getLast? = some s ∧ p.length ≤ dep s + 1 := by
  obtain ⟨w, he, hp, hh, hl⟩ :=
    recon_spec hc (dep s) s le_rfl hs (cf.length + 1) (by omega) [s]
  refine ⟨w ++ [s], ?_, hp, hh, List.getLast?_concat _, by simp; omega⟩
  unfold reconstruct_path
  rw [he]
  simp

/-! ### Characterisation of one BFS expansion -/

theorem bfsVisit_spec (current : PState) (blank : Nat) :
    ∀ (ms : List Nat) (queue : List PState)
      (cf : List (PState × Option PState)),
    ∃ fresh : List PState,
      (bfsVisit current blank ms queue cf).1 = queue ++ fresh ∧
      fresh.Nodup ∧
      (∀ t ∈ fresh, cf.lookup t = none ∧ ∃ m ∈ ms, t = swapIdx current blank m) ∧
      (∀ t, (bfsVisit current blank ms queue cf).2.lookup t =
        if t ∈ fresh then some (some current) else cf.lookup t) ∧
      (∀ m ∈ ms, ((bfsVisit current blank ms queue cf).2.lookup
        (swapIdx current blank m)).isSome) ∧
      (bfsVisit current blank ms queue cf).2.map Prod.fst =
        fresh.reverse ++ cf.map Prod.fst := by
  intro ms
  induction ms with
  | nil =>
    intro queue cf
    refine ⟨[], by simp [bfsVisit], List.nodup_nil, by simp, ?_, by simp,
      by simp [bfsVisit]⟩
    intro t
    simp [bfsVisit]
  | cons m ms ih =>
    intro queue cf
    cases hn : cf.lookup (swapIdx current blank m) with
    | some v =>
      have hstep : bfsVisit current blank (m :: ms) queue cf =
          bfsVisit current blank ms queue cf := by
        simp only [bfsVisit, hn]
      obtain ⟨fresh, h1, h2, h3, h4, h5, h6⟩ := ih queue cf
      rw [hstep]
      refine ⟨fresh, h1, h2, ?_, h4, ?_, h6⟩
      · intro t ht
        obtain ⟨ha, mm, hmm, hb⟩ := h3 t ht
        exact ⟨ha, mm, by simp [hmm], hb⟩
      · intro m' hm'
        simp only [List.mem_cons] at hm'
        rcases hm' with hm' | hm'
        · subst hm'
          rw [h4]
          by_cases hmem : swapIdx current blank m' ∈ fresh
          · rw [if_pos hmem]; rfl
          · rw [if_neg hmem, hn]; rfl
        · exact h5 m' hm'
    | none =>
      have hstep : bfsVisit current blank (m :: ms) queue cf =
          bfsVisit current blank ms (queue ++ [swapIdx current blank m])
            ((swapIdx current blank m, some current) :: cf) := by
        simp only [bfsVisit, hn]
      obtain ⟨fresh, h1, h2, h3, h4, h5, h6⟩ :=
        ih (queue ++ [swapIdx current blank m])
          ((swapIdx current blank m, some current) :: cf)
      rw [hstep]
      have hnmem : swapIdx current blank m ∉ fresh := by
        intro hmem
        have := (h3 _ hmem).1
        rw [lookup_cons_eq, if_pos rfl] at this
        exact Option.noConfusion this
      refine ⟨swapIdx current blank m :: fresh, ?_, ?_, ?_, ?_, ?_, ?_⟩
      · rw [h1]; simp
      · exact List.nodup_cons.mpr ⟨hnmem, h2⟩
      · intro t ht
        simp only [List.mem_cons] at ht
        rcases ht with ht | ht
        · subst ht
          exact ⟨hn, m, by simp, rfl⟩
        · obtain ⟨ha, mm, hmm, hb⟩ := h3 t ht
          rw [lookup_cons_eq] at ha
          by_cases hteq : t = swapIdx current blank m
          · rw [if_pos hteq] at ha; exact Option.noConfusion ha
          · rw [if_neg hteq] at ha
            exact ⟨ha, mm, by simp [hmm], hb⟩
      · intro t
        rw [h4 t]
        by_cases ht : t ∈ fresh
        · rw [if_pos ht, if_pos (by simp [ht])]
        · rw [if_neg ht, lookup_cons_eq]
          by_cases hteq : t = swapIdx current blank m
          · rw [if_pos hteq, if_pos (by simp [hteq])]
          · rw [if_neg hteq, if_neg (by simp [hteq, ht])]
      · intro m' hm'
        simp only [List.mem_cons] at hm'
        rcases hm' with hm' | hm'
        · subst hm'
          rw [h4]
          by_cases hmem : swapIdx current blank m' ∈ fresh
          · rw [if_pos hmem]; rfl
          · rw [if_neg hmem, lookup_cons_eq, if_pos rfl]; rfl
        · exact h5 m' hm'
      · rw [h6]
        simp

/-! ### BFS invariant: auxiliary lemmas -/

theorem reachN_succ_last {n : Nat} : ∀ {s t : PState}, ReachN (n + 1) s t →
    ∃ w, ReachN n s w ∧ StepOk w t := by
  induction n with
  | zero =>
    intro s t h
    obtain ⟨u, hu, hr⟩ := h
    have : t = u := hr
    subst this
    exact ⟨s, rfl, mem_pyNeighbors.mp hu⟩
  | succ n ih =>
    intro s t h
    obtain ⟨u, hu, hr⟩ := h
    obtain ⟨w, hw, hstep⟩ := ih hr
    exact ⟨w, ⟨u, hu, hw⟩, hstep⟩

theorem nodup_perm_bound {start : PState} (hv : ValidState start)
    {keys : List PState} (hnd : keys.Nodup)
    (hmem : ∀ s ∈ keys, s.Perm start) : keys.length ≤ npuz := by
  have hsub : keys ⊆ start.permutations := by
    intro s hs
    exact List.mem_permutations.mpr (hmem s hs)
  have h1 : keys.toFinset.card = keys.length := List.toFinset_card_of_nodup hnd
  have h2 : keys.toFinset ⊆ start.permutations.toFinset := by
    intro x hx
    rw [List.mem_toFinset] at hx ⊢
    exact hsub hx
  have h3 := Finset.card_le_card h2
  have h4 := List.toFinset_card_le start.permutations
  have h5 : start.permutations.length = 362880 := by
    rw [List.length_permutations, valid_length hv]
    rfl
  unfold npuz
  omega

theorem BfsInv.relayer {start goal : PState} {dep : PState → Nat} {d : Nat}
    {queue : List PState} {cf : List (PState × Option PState)}
    (hInv : BfsInv start goal dep d queue cf)
    (hall : ∀ s ∈ queue, dep s = d + 1) :
    BfsInv start goal dep (d + 1) queue cf := by
  refine ⟨hInv.chain, hInv.keys_nodup, hInv.dep_bound, hInv.dep_min,
    hInv.keys_perm, hInv.queue_key, hInv.queue_nodup,
    ⟨queue, [], by simp, hall, by simp⟩, hInv.closed, ?_, hInv.goal_q⟩
  intro k s hr hk
  by_cases hkd : k ≤ d
  · exact hInv.found_all k s hr hkd
  · have hkeq : k = d + 1 := by omega
    subst hkeq
    obtain ⟨w, hw, hstep⟩ := reachN_succ_last hr
    have hwkey : (cf.lookup w).isSome := hInv.found_all d w hw le_rfl
    have hwd : dep w ≤ d := (hInv.dep_min w hwkey).2 d hw
    have hwq : w ∉ queue := by
      intro hmem
      have := hall w hmem
      omega
    exact hInv.closed w hwkey hwq s (mem_pyNeighbors.mpr hstep)

theorem BfsInv.head_norm {start goal : PState} {dep : PState → Nat} {d : Nat}
    {current : PState} {rest : List PState}
    {cf : List (PState × Option PState)}
    (hInv : BfsInv start goal dep d (current :: rest) cf) :
    ∃ d2, dep current = d2 ∧ BfsInv start goal dep d2 (current :: rest) cf := by
  obtain ⟨A, B, hq, hA, hB⟩ := hInv.layer
  cases A with
  | nil =>
    simp only [List.nil_append] at hq
    refine ⟨d + 1, ?_, hInv.relayer ?_⟩
    · exact hB current (by rw [← hq]; simp)
    · intro s hs
      exact hB s (by rw [← hq]; exact hs)
  | cons a A2 =>
    rw [List.cons_append] at hq
    injection hq with h1 h2
    subst h1
    subst h2
    exact ⟨d, hA current (by simp), hInv⟩

theorem bfsInv_init {start goal : PState} (hv : ValidState start) :
    BfsInv start goal (fun _ => 0) 0 [start] [(start, none)] := by
  have hlk : ∀ s : PState, List.lookup s [(start, (none : Option PState))] =
      if s = start then some none else none := by
    intro s
    rw [lookup_cons_eq]
    split <;> rfl
  have hkey : ∀ s : PState,
      (List.lookup s [(start, (none : Option PState))]).isSome → s = start := by
    intro s hs
    rw [hlk] at hs
    by_cases h : s = start
    · exact h
    · rw [if_neg h] at hs; simp at hs
  refine ⟨⟨by rw [hlk, if_pos rfl], ?_⟩, by simp, ?_, ?_, ?_, ?_, by simp, ?_,
    ?_, ?_, ?_⟩
  · intro s v hsv hne
    exact absurd (hkey s (by rw [hsv]; rfl)) hne
  · intro s hs
    simp
  · intro s hs
    have := hkey s hs
    subst this
    exact ⟨rfl, fun k _ => Nat.zero_le k⟩
  · intro s hs
    have := hkey s hs
    subst this
    exact List.Perm.refl s
  · intro s hs
    simp only [List.mem_singleton] at hs
    subst hs
    rw [hlk, if_pos rfl]
    rfl
  · exact ⟨[start], [], by simp, fun s hs => rfl, by simp⟩
  · intro s hs hnq
    have := hkey s hs
    subst this
    simp at hnq
  · intro k s hr hk
    have hk0 : k = 0 := by omega
    subst hk0
    have : s = start := hr
    subst this
    rw [hlk, if_pos rfl]
    rfl
  · intro hg
    have := hkey goal hg
    subst this
    simp

theorem bfs_step {start goal : PState} {dep : PState → Nat} {d : Nat}
    {current : PState} {rest : List PState}
    {cf : List (PState × Option PState)}
    (hv : ValidState start)
    (hInv : BfsInv start goal dep d (current :: rest) cf)
    (hdc : dep current = d) (hg : current ≠ goal) :
    ∃ dep2 fresh,
      (bfsVisit current (List.indexOf 0 current)
        (MOVES (List.indexOf 0 current)) rest cf).1 = rest ++ fresh ∧
      (bfsVisit current (List.indexOf 0 current)
        (MOVES (List.indexOf 0 current)) rest cf).2.length =
        cf.length + fresh.length ∧
      BfsInv start goal dep2 d
        (bfsVisit current (List.indexOf 0 current)
          (MOVES (List.indexOf 0 current)) rest cf).1
        (bfsVisit current (List.indexOf 0 current)
          (MOVES (List.indexOf 0 current)) rest cf).2 := by
  obtain ⟨fresh, hq, hnd, hprop, hlate, hall, hkeys⟩ :=
    bfsVisit_spec current (List.indexOf 0 current)
      (MOVES (List.indexOf 0 current)) rest cf
  have hcur_key : (cf.lookup current).isSome :=
    hInv.queue_key current (by simp)
  have hcur_perm : current.Perm start := hInv.keys_perm current hcur_key
  have hcur_valid : ValidState current := hcur_perm.trans hv
  have hmono : ∀ t, (cf.lookup t).isSome →
      (((bfsVisit current (List.indexOf 0 current)
        (MOVES (List.indexOf 0 current)) rest cf).2).lookup t).isSome := by
    intro t ht
    rw [hlate]
    by_cases htf : t ∈ fresh
    · rw [if_pos htf]; rfl
    · rw [if_neg htf]; exact ht
  have hold_not_fresh : ∀ t, (cf.lookup t).isSome → t ∉ fresh := by
    intro t ht htf
    rw [(hprop t htf).1] at ht
    simp at ht
  have hfresh_step : ∀ t ∈ fresh, StepOk current t := by
    intro t ht
    obtain ⟨_, m, hm, heq⟩ := hprop t ht
    exact ⟨m, hm, heq⟩
  have hfresh_perm : ∀ t ∈ fresh, t.Perm start := by
    intro t ht
    exact (stepOk_valid (hfresh_step t ht) hcur_valid).trans hv.symm
  have hreach_cur : ReachN d start current := by
    have := (hInv.dep_min current hcur_key).1
    rwa [hdc] at this
  have hfresh_reach : ∀ t ∈ fresh, ReachN (d + 1) start t := by
    intro t ht
    exact reachN_trans hreach_cur (reachN_step (hfresh_step t ht))
  have hfresh_min : ∀ t ∈ fresh, IsMinDist start t (d + 1) := by
    intro t ht
    refine ⟨hfresh_reach t ht, ?_⟩
    intro k hk
    by_contra hlt
    have hkd : k ≤ d := by omega
    have := hInv.found_all k t hk hkd
    exact hold_not_fresh t this ht
  have hlen : (bfsVisit current (List.indexOf 0 current)
      (MOVES (List.indexOf 0 current)) rest cf).2.length =
      cf.length + fresh.length := by
    have hc := congrArg List.length hkeys
    simp only [List.length_map, List.length_append, List.length_reverse] at hc
    omega
  refine ⟨fun t => if t ∈ fresh then d + 1 else dep t, fresh, hq, hlen,
    ?_, ?_, ?_, ?_, ?_, ?_, ?_, ?_, ?_, ?_, ?_⟩
  · -- chain
    constructor
    · have hstart_key : (cf.lookup start).isSome := by rw [hInv.chain.1]; rfl
      rw [hlate, if_neg (hold_not_fresh start hstart_key), hInv.chain.1]
    · intro s v hsv hns
      rw [hlate] at hsv
      by_cases hsf : s ∈ fresh
      · rw [if_pos hsf] at hsv
        have hv' := Option.some.inj hsv
        subst hv'
        refine ⟨current, rfl, hmono current hcur_key, hfresh_step s hsf, ?_⟩
        dsimp only
        rw [if_neg (hold_not_fresh current hcur_key), if_pos hsf, hdc]
        omega
      · rw [if_neg hsf] at hsv
        obtain ⟨p, hveq, hpk, hstep, hdp⟩ := hInv.chain.2 s v hsv hns
        refine ⟨p, hveq, hmono p hpk, hstep, ?_⟩
        dsimp only
        rw [if_neg (hold_not_fresh p hpk), if_neg hsf]
        exact hdp
  · -- keys_nodup
    rw [hkeys]
    refine List.Nodup.append (List.nodup_reverse.mpr hnd) hInv.keys_nodup ?_
    intro t ht1 ht2
    rw [List.mem_reverse] at ht1
    have := (hprop t ht1).1
    rw [lookup_eq_none_iff] at this
    exact this ht2
  · -- dep_bound
    intro s hs
    dsimp only
    rw [hlate] at hs
    by_cases hsf : s ∈ fresh
    · rw [if_pos hsf]
      have h1 := hInv.dep_bound current hcur_key
      have h2 : 1 ≤ fresh.length := by
        cases fresh with
        | nil => simp at hsf
        | cons a l => simp
      rw [hlen, hdc] at *
      omega
    · rw [if_neg hsf]
      rw [if_neg hsf] at hs
      have := hInv.dep_bound s hs
      omega
  · -- dep_min
    intro s hs
    dsimp only
    rw [hlate] at hs
    by_cases hsf : s ∈ fresh
    · rw [if_pos hsf]
      exact hfresh_min s hsf
    · rw [if_neg hsf]
      rw [if_neg hsf] at hs
      exact hInv.dep_min s hs
  · -- keys_perm
    intro s hs
    rw [hlate] at hs
    by_cases hsf : s ∈ fresh
    · exact hfresh_perm s hsf
    · rw [if_neg hsf] at hs
      exact hInv.keys_perm s hs
  · -- queue_key
    intro s hs
    rw [hq, List.mem_append] at hs
    rcases hs with hs | hs
    · exact hmono s (hInv.queue_key s (by simp [hs]))
    · rw [hlate, if_pos hs]; rfl
  · -- queue_nodup
    rw [hq]
    refine List.Nodup.append ?_ hnd ?_
    · exact (List.nodup_cons.mp hInv.queue_nodup).2
    · intro t ht1 ht2
      exact hold_not_fresh t (hInv.queue_key t (by simp [ht1])) ht2
  · -- layer
    obtain ⟨A, B, hqeq, hA, hB⟩ := hInv.layer
    cases A with
    | nil =>
      simp only [List.nil_append] at hqeq
      have h := hB current (by rw [← hqeq]; simp)
      rw [hdc] at h
      omega
    | cons a A2 =>
      rw [List.cons_append] at hqeq
      injection hqeq with h1 h2
      subst h1
      refine ⟨A2, B ++ fresh, ?_, ?_, ?_⟩
      · rw [hq, h2, List.append_assoc]
      · intro s hs
        have hsq : s ∈ current :: rest := by
          rw [h2]; simp [List.mem_append, hs]
        rw [if_neg (hold_not_fresh s (hInv.queue_key s hsq))]
        exact hA s (by simp [hs])
      · intro s hs
        rw [List.mem_append] at hs
        rcases hs with hs | hs
        · have hsq : s ∈ current :: rest := by
            rw [h2]; simp [List.mem_append, hs]
          rw [if_neg (hold_not_fresh s (hInv.queue_key s hsq))]
          exact hB s hs
        · rw [if_pos hs]
  · -- closed
    intro s hs hnq t ht
    by_cases hsf : s ∈ fresh
    · exact absurd (by rw [hq]; exact List.mem_append_right rest hsf) hnq
    · rw [hlate, if_neg hsf] at hs
      by_cases hsc : s = current
      · subst hsc
        rw [mem_pyNeighbors] at ht
        obtain ⟨m, hm, heq⟩ := ht
        rw [heq]
        exact hall m hm
      · have hnq2 : s ∉ current :: rest := by
          intro hmem
          simp only [List.mem_cons] at hmem
          rcases hmem with hmem | hmem
          · exact hsc hmem
          · exact hnq (by rw [hq]; exact List.mem_append_left fresh hmem)
        exact hmono t (hInv.closed s hs hnq2 t ht)
  · -- found_all
    intro k s hr hk
    exact hmono s (hInv.found_all k s hr hk)
  · -- goal_q
    intro hgk
    rw [hlate] at hgk
    by_cases hgf : goal ∈ fresh
    · rw [hq]
      exact List.mem_append_right rest hgf
    · rw [if_neg hgf] at hgk
      have := hInv.goal_q hgk
      simp only [List.mem_cons] at this
      rcases this with h | h
      · exact absurd h.symm hg
      · rw [hq]
        exact List.mem_append_left fresh h

theorem bfs_reach_key {start goal : PState} {dep : PState → Nat} {d : Nat}
    {cf : List (PState × Option PState)}
    (hInv : BfsInv start goal dep d [] cf) :
    ∀ n s, ReachN n start s → (cf.lookup s).isSome := by
  intro n
  induction n with
  | zero =>
    intro s h
    have : s = start := h
    subst this
    rw [hInv.chain.1]; rfl
  | succ n ih =>
    intro s h
    obtain ⟨w, hw, hstep⟩ := reachN_succ_last h
    exact hInv.closed w (ih w hw) (by simp) s (mem_pyNeighbors.mpr hstep)

theorem bfsAux_spec (start goal : PState) (hv : ValidState start) :
    ∀ (fuel : Nat) (queue : List PState) (cf : List (PState × Option PState))
      (expanded : Nat) (dep : PState → Nat) (d : Nat),
    BfsInv start goal dep d queue cf →
    (npuz - cf.length) + queue.length + 1 ≤ fuel →
    (∃ p e, bfsAux fuel queue cf expanded goal = .out (some p) e ∧
      PathOk p ∧ p.head? = some start ∧ p.getLast? = some goal ∧
      IsMinDist start goal (p.length - 1)) ∨
    ((∃ e, bfsAux fuel queue cf expanded goal = .out none e) ∧
      ¬ Reachable start goal) := by
  intro fuel
  induction fuel with
  | zero =>
    intro queue cf expanded dep d hInv hf
    omega
  | succ fuel ih =>
    intro queue cf expanded dep d hInv hf
    cases queue with
    | nil =>
      right
      refine ⟨⟨expanded, by simp [bfsAux]⟩, ?_⟩
      rintro ⟨n, hr⟩
      have hk := bfs_reach_key hInv n goal hr
      have := hInv.goal_q hk
      simp at this
    | cons current rest =>
      obtain ⟨d2, hdc, hInv2⟩ := hInv.head_norm
      by_cases hcg : current = goal
      · subst hcg
        have hcur_key : (cf.lookup current).isSome :=
          hInv2.queue_key current (by simp)
        have hdb := hInv2.dep_bound current hcur_key
        obtain ⟨p, hrec, hp, hh, hl, hplen⟩ :=
          reconstruct_spec hInv2.chain hcur_key (by omega)
        left
        refine ⟨p, expanded + 1, ?_, hp, hh, hl, ?_⟩
        · simp only [bfsAux, beq_self_eq_true, if_true, hrec]
        · have hne : p ≠ [] := by
            intro h0
            rw [h0] at hh
            simp at hh
          have hlen1 : 1 ≤ p.length := by
            cases p with
            | nil => exact absurd rfl hne
            | cons a l => simp
          have hmin := hInv2.dep_min current hcur_key
          have hreach : ReachN (p.length - 1) start current :=
            reachN_of_path hp hh hl
          have heq : p.length - 1 = dep current :=
            Nat.le_antisymm (by omega) (hmin.2 (p.length - 1) hreach)
          rw [heq]
          exact hmin
      · obtain ⟨dep2, fresh, hq, hlen, hInv3⟩ := bfs_step hv hInv2 hdc hcg
        have hbeq : (current == goal) = false := beq_eq_false_iff_ne.mpr hcg
        have hred : bfsAux (fuel + 1) (current :: rest) cf expanded goal =
            bfsAux fuel
              (bfsVisit current (List.indexOf 0 current)
                (MOVES (List.indexOf 0 current)) rest cf).1
              (bfsVisit current (List.indexOf 0 current)
                (MOVES (List.indexOf 0 current)) rest cf).2
              (expanded + 1) goal := by
          simp only [bfsAux, hbeq, Bool.false_eq_true, if_false]
        rw [hred]
        apply ih _ _ (expanded + 1) dep2 d2 hInv3
        have hkb : (bfsVisit current (List.indexOf 0 current)
            (MOVES (List.indexOf 0 current)) rest cf).2.length ≤ npuz := by
          have h1 : ∀ s ∈ (bfsVisit current (List.indexOf 0 current)
              (MOVES (List.indexOf 0 current)) rest cf).2.map Prod.fst,
              s.Perm start := by
            intro s hs
            exact hInv3.keys_perm s ((lookup_isSome_iff _ s).mpr hs)
          have h2 := nodup_perm_bound hv hInv3.keys_nodup h1
          rwa [List.length_map] at h2
        have hqlen : (bfsVisit current (List.indexOf 0 current)
            (MOVES (List.indexOf 0 current)) rest cf).1.length =
            rest.length + fresh.length := by
          rw [hq, List.length_append]
        rw [hqlen, hlen]
        rw [hlen] at hkb
        simp only [List.length_cons] at hf
        omega

theorem bfs_spec (start goal : PState) (hv : ValidState start) :
    (∃ p e, bfs start goal = .out (some p) e ∧ PathOk p ∧
      p.head? = some start ∧ p.getLast? = some goal ∧
      IsMinDist start goal (p.length - 1)) ∨
    ((∃ e, bfs start goal = .out none e) ∧ ¬ Reachable start goal) := by
  unfold bfs bfsFuel
  apply bfsAux_spec start goal hv 362881 [start] [(start, none)] 0
    (fun _ => 0) 0 (bfsInv_init hv)
  simp only [List.length_singleton, List.length_cons, List.length_nil, npuz]
  omega

theorem bfsAux_cons_eq (fuel : Nat) (current : PState) (rest : List PState)
    (cf : List (PState × Option PState)) (expanded : Nat) (goal : PState) :
    bfsAux (fuel + 1) (current :: rest) cf expanded goal =
      if current == goal then
        match reconstruct_path cf current with
        | none => .diverge
        | some p => .out (some p) (expanded + 1)
      else
        bfsAux fuel
          (bfsVisit current (List.indexOf 0 current)
            (MOVES (List.indexOf 0 current)) rest cf).1
          (bfsVisit current (List.indexOf 0 current)
            (MOVES (List.indexOf 0 current)) rest cf).2
          (expanded + 1) goal := rfl

theorem bfs_self (s : PState) : bfs s s = .out (some [s]) 1 := by
  show bfsAux (362880 + 1) [s] [(s, none)] 0 s = .out (some [s]) 1
  have hrec : reconstruct_path [(s, (none : Option PState))] s = some [s] := by
    show reconAux (1 + 1) [(s, none)] s [s] = some [s]
    simp only [reconAux, lookup_cons_eq, if_pos rfl]
    rfl
  rw [bfsAux_cons_eq, if_pos (beq_self_eq_true s), hrec]

/-! ### A* potential bookkeeping -/

theorem gdep_cons_ne {gs : List (PState × Nat)} {t s : PState} {v : Nat}
    (h : s ≠ t) : gdep ((t, v) :: gs) s = gdep gs s := by
  unfold gdep
  rw [lookup_cons_eq, if_neg h]

theorem gdep_cons_self {gs : List (PState × Nat)} {t : PState} {v : Nat} :
    gdep ((t, v) :: gs) t = v := by
  unfold gdep
  rw [lookup_cons_eq, if_pos rfl]
  rfl

theorem gdep_eq {gs : List (PState × Nat)} {s : PState} {g : Nat}
    (h : gs.lookup s = some g) : gdep gs s = g := by
  unfold gdep
  rw [h]
  rfl

theorem sum_map_update_lt : ∀ {l : List PState}, l.Nodup → ∀ {t : PState},
    t ∈ l → ∀ {f f2 : PState → Nat}, (∀ s ∈ l, s ≠ t → f2 s = f s) →
    f2 t < f t → (l.map f2).sum + 1 ≤ (l.map f).sum := by
  intro l
  induction l with
  | nil => intro _ t ht; simp at ht
  | cons x xs ih =>
    intro hnd t ht f f2 hno hdec
    rw [List.nodup_cons] at hnd
    simp only [List.mem_cons] at ht
    simp only [List.map_cons, List.sum_cons]
    rcases ht with rfl | ht
    · have htail : xs.map f2 = xs.map f :=
        List.map_congr_left (fun s hs => hno s (by simp [hs])
          (fun hst => hnd.1 (hst ▸ hs)))
      rw [htail]
      omega
    · have hxt : x ≠ t := fun hxt => hnd.1 (hxt ▸ ht)
      have hx := hno x (by simp) hxt
      have := ih hnd.2 ht (fun s hs hst => hno s (by simp [hs]) hst) hdec
      omega

theorem dedup_keys_bound {start : PState} (hv : ValidState start)
    {gs : List (PState × Nat)}
    (hperm : ∀ s, (gs.lookup s).isSome → s.Perm start) :
    ((gs.map Prod.fst).dedup).length ≤ npuz :=
  nodup_perm_bound hv (List.nodup_dedup _)
    (fun s hs => hperm s ((lookup_isSome_iff _ _).mpr (List.mem_dedup.mp hs)))

theorem phi_relax_fresh {gs : List (PState × Nat)} {t : PState} {v : Nat}
    (hnone : gs.lookup t = none)
    (hK : ((((t, v) :: gs).map Prod.fst).dedup).length ≤ npuz)
    (hvlt : v < ((((t, v) :: gs).map Prod.fst).dedup).length) :
    astarPhi ((t, v) :: gs) + 1 ≤ astarPhi gs := by
  have hnm : t ∉ gs.map Prod.fst := (lookup_eq_none_iff gs t).mp hnone
  have hd : (((t, v) :: gs).map Prod.fst).dedup =
      t :: (gs.map Prod.fst).dedup := by
    rw [List.map_cons]
    exact List.dedup_cons_of_not_mem hnm
  have hsum : ((((t, v) :: gs).map Prod.fst).dedup.map
      (gdep ((t, v) :: gs))).sum =
      v + (((gs.map Prod.fst).dedup).map (gdep gs)).sum := by
    rw [hd, List.map_cons, List.sum_cons, gdep_cons_self]
    have hmc : ((gs.map Prod.fst).dedup).map (gdep ((t, v) :: gs)) =
        ((gs.map Prod.fst).dedup).map (gdep gs) := by
      apply List.map_congr_left
      intro s hs
      have hsm : s ∈ gs.map Prod.fst := List.mem_dedup.mp hs
      exact gdep_cons_ne (fun hst => hnm (hst ▸ hsm))
    rw [hmc]
  unfold astarPhi gSum
  rw [hsum, hd]
  rw [hd] at hK hvlt
  simp only [List.length_cons] at hK hvlt ⊢
  have hmul : npuz * (npuz - ((gs.map Prod.fst).dedup.length + 1)) + npuz =
      npuz * (npuz - (gs.map Prod.fst).dedup.length) := by
    have h1 : npuz - (gs.map Prod.fst).dedup.length =
        (npuz - ((gs.map Prod.fst).dedup.length + 1)) + 1 := by omega
    rw [h1, Nat.mul_add, Nat.mul_one]
  omega

theorem phi_relax_improve {gs : List (PState × Nat)} {t : PState}
    {v gold : Nat} (hold : gs.lookup t = some gold) (hlt : v < gold) :
    astarPhi ((t, v) :: gs) + 1 ≤ astarPhi gs := by
  have hm : t ∈ gs.map Prod.fst :=
    (lookup_isSome_iff gs t).mp (by rw [hold]; rfl)
  have hd : (((t, v) :: gs).map Prod.fst).dedup = (gs.map Prod.fst).dedup := by
    rw [List.map_cons]
    exact List.dedup_cons_of_mem hm
  have hsum : (((gs.map Prod.fst).dedup).map (gdep ((t, v) :: gs))).sum + 1 ≤
      (((gs.map Prod.fst).dedup).map (gdep gs)).sum := by
    apply sum_map_update_lt (List.nodup_dedup _) (List.mem_dedup.mpr hm)
    · intro s hs hst
      exact gdep_cons_ne hst
    · rw [gdep_cons_self, gdep_eq hold]
      exact hlt
  unfold astarPhi gSum
  rw [hd]
  omega

/-! ### A* invariant maintenance -/

theorem astar_relax_one {start goal current t : PState} {gc : Nat}
    {o : List (Nat × PState)} {cf : List (PState × Option PState)}
    {gs : List (PState × Nat)}
    (hv : ValidState start) (hcur_perm : current.Perm start)
    (hstep : StepOk current t)
    (hcur : gs.lookup current = some gc)
    (hMid : AstarMid start goal current o cf gs)
    (hcond : gs.lookup t = none ∨ ∃ gn, gs.lookup t = some gn ∧ gc + 1 < gn) :
    List.lookup current ((t, gc + 1) :: gs) = some gc ∧
    AstarMid start goal current (o ++ [(gc + 1 + h_misplaced t goal, t)])
      ((t, some current) :: cf) ((t, gc + 1) :: gs) ∧
    astarPhi ((t, gc + 1) :: gs) + 1 ≤ astarPhi gs := by
  have hneq : t ≠ current := by
    intro h
    subst h
    rcases hcond with hc | ⟨gn, hc, hlt⟩
    · rw [hc] at hcur; exact Option.noConfusion hcur
    · rw [hc] at hcur
      have := Option.some.inj hcur
      omega
  have hnst : t ≠ start := by
    intro h
    subst h
    rcases hcond with hc | ⟨gn, hc, hlt⟩
    · rw [hMid.start_g] at hc
      exact Option.noConfusion hc
    · rw [hMid.start_g] at hc
      have := Option.some.inj hc
      omega
  have htperm : t.Perm start :=
    (stepOk_valid hstep (hcur_perm.trans hv)).trans hv.symm
  have hlk : ∀ s : PState, List.lookup s ((t, gc + 1) :: gs) =
      if s = t then some (gc + 1) else gs.lookup s := fun s => lookup_cons_eq t s _ gs
  have hlkc : ∀ s : PState, List.lookup s ((t, (some current : Option PState)) :: cf) =
      if s = t then some (some current) else cf.lookup s :=
    fun s => lookup_cons_eq t s _ cf
  have hcur2 : List.lookup current ((t, gc + 1) :: gs) = some gc := by
    rw [hlk, if_neg (fun h => hneq h.symm)]
    exact hcur
  have hcurkey_cf : (cf.lookup current).isSome :=
    (hMid.keys_iff current).mp (by rw [hcur]; rfl)
  refine ⟨hcur2, ⟨?_, ?_, ⟨?_, ?_⟩, ?_, ?_, ?_, ?_, ?_, ?_⟩, ?_⟩
  · -- start_g
    rw [hlk, if_neg (fun h => hnst h.symm)]
    exact hMid.start_g
  · -- keys_iff
    intro s
    rw [hlk, hlkc]
    by_cases hst : s = t
    · rw [if_pos hst, if_pos hst]; simp
    · rw [if_neg hst, if_neg hst]
      exact hMid.keys_iff s
  · -- chain start
    rw [hlkc, if_neg (fun h => hnst h.symm)]
    exact hMid.chain.1
  · -- chain clause
    intro s v hsv hns
    rw [hlkc] at hsv
    by_cases hst : s = t
    · rw [if_pos hst] at hsv
      have hv' := Option.some.inj hsv
      subst hv'
      subst hst
      refine ⟨current, rfl, ?_, hstep, ?_⟩
      · rw [hlkc, if_neg (fun h => hneq h.symm)]
        exact hcurkey_cf
      · rw [gdep_cons_ne (Ne.symm hneq), gdep_cons_self, gdep_eq hcur]
        omega
    · rw [if_neg hst] at hsv
      obtain ⟨p, hveq, hpk, hpstep, hdp⟩ := hMid.chain.2 s v hsv hns
      refine ⟨p, hveq, ?_, hpstep, ?_⟩
      · rw [hlkc]
        by_cases hpt : p = t
        · rw [if_pos hpt]; rfl
        · rw [if_neg hpt]; exact hpk
      · rw [gdep_cons_ne hst]
        by_cases hpt : p = t
        · subst hpt
          rcases hcond with hc | ⟨gn, hc, hlt⟩
          · have hps : (gs.lookup p).isSome := (hMid.keys_iff p).mpr hpk
            rw [hc] at hps
            simp at hps
          · rw [gdep_cons_self]
            have := gdep_eq hc
            rw [this] at hdp
            omega
        · rw [gdep_cons_ne hpt]
          exact hdp
  · -- g_bound
    intro s g hsg
    rw [hlk] at hsg
    simp only [List.length_cons]
    by_cases hst : s = t
    · rw [if_pos hst] at hsg
      have := Option.some.inj hsg
      subst this
      have := hMid.g_bound current gc hcur
      omega
    · rw [if_neg hst] at hsg
      have := hMid.g_bound s g hsg
      omega
  · -- g_lt
    intro s g hsg
    rw [hlk] at hsg
    rcases hcond with hc | ⟨gn, hc, hlt⟩
    · -- fresh key: dedup grows by one
      have hnm : t ∉ gs.map Prod.fst := (lookup_eq_none_iff gs t).mp hc
      have hd : ((((t, gc + 1) :: gs)).map Prod.fst).dedup =
          t :: (gs.map Prod.fst).dedup := by
        rw [List.map_cons]
        exact List.dedup_cons_of_not_mem hnm
      rw [hd, List.length_cons]
      by_cases hst : s = t
      · rw [if_pos hst] at hsg
        have := Option.some.inj hsg
        subst this
        have := hMid.g_lt current gc hcur
        omega
      · rw [if_neg hst] at hsg
        have := hMid.g_lt s g hsg
        omega
    · -- existing key: dedup unchanged
      have hm : t ∈ gs.map Prod.fst :=
        (lookup_isSome_iff gs t).mp (by rw [hc]; rfl)
      have hd : ((((t, gc + 1) :: gs)).map Prod.fst).dedup =
          (gs.map Prod.fst).dedup := by
        rw [List.map_cons]
        exact List.dedup_cons_of_mem hm
      rw [hd]
      by_cases hst : s = t
      · rw [if_pos hst] at hsg
        have := Option.some.inj hsg
        subst this
        have := hMid.g_lt t gn hc
        omega
      · rw [if_neg hst] at hsg
        exact hMid.g_lt s g hsg
  · -- keys_perm
    intro s hs
    rw [hlk] at hs
    by_cases hst : s = t
    · subst hst; exact htperm
    · rw [if_neg hst] at hs
      exact hMid.keys_perm s hs
  · -- o_g
    intro f s hfs
    rw [List.mem_append] at hfs
    rcases hfs with hfs | hfs
    · obtain ⟨g, hg, hgf⟩ := hMid.o_g f s hfs
      rw [hlk]
      by_cases hst : s = t
      · subst hst
        rcases hcond with hc | ⟨gn, hc, hlt⟩
        · rw [hc] at hg; exact Option.noConfusion hg
        · rw [hc] at hg
          have := Option.some.inj hg
          subst this
          exact ⟨gc + 1, by rw [if_pos rfl], by omega⟩
      · rw [if_neg hst]
        exact ⟨g, hg, hgf⟩
    · simp only [List.mem_singleton, Prod.mk.injEq] at hfs
      obtain ⟨hf, hs⟩ := hfs
      subst hf; subst hs
      rw [hlk, if_pos rfl]
      exact ⟨gc + 1, rfl, by omega⟩
  · -- relax2
    intro s g hsg hnc
    rw [hlk] at hsg
    by_cases hst : s = t
    · rw [if_pos hst] at hsg
      have := Option.some.inj hsg
      subst this
      subst hst
      left
      exact ⟨gc + 1 + h_misplaced s goal, List.mem_append_right o (by simp),
        le_rfl⟩
    · rw [if_neg hst] at hsg
      rcases hMid.relax2 s g hsg hnc with hgood | hrel
      · left
        obtain ⟨f, hf, hfle⟩ := hgood
        exact ⟨f, List.mem_append_left _ hf, hfle⟩
      · right
        intro u hu
        obtain ⟨gu, hgu, hgule⟩ := hrel u hu
        rw [hlk]
        by_cases hut : u = t
        · subst hut
          rcases hcond with hc | ⟨gn, hc, hlt⟩
          · rw [hc] at hgu; exact Option.noConfusion hgu
          · rw [hc] at hgu
            have := Option.some.inj hgu
            subst this
            exact ⟨gc + 1, by rw [if_pos rfl], by omega⟩
        · rw [if_neg hut]
          exact ⟨gu, hgu, hgule⟩
  · -- goal_open
    intro hg
    rw [hlk] at hg
    by_cases hst : goal = t
    · subst hst
      exact ⟨gc + 1 + h_misplaced goal goal, List.mem_append_right o (by simp)⟩
    · rw [if_neg hst] at hg
      obtain ⟨f, hf⟩ := hMid.goal_open hg
      exact ⟨f, List.mem_append_left _ hf⟩
  · -- potential
    rcases hcond with hc | ⟨gn, hc, hlt⟩
    · apply phi_relax_fresh hc
      · apply dedup_keys_bound hv
        intro s hs
        rw [hlk] at hs
        by_cases hst : s = t
        · subst hst; exact htperm
        · rw [if_neg hst] at hs
          exact hMid.keys_perm s hs
      · have hnm : t ∉ gs.map Prod.fst := (lookup_eq_none_iff gs t).mp hc
        have hd : ((((t, gc + 1) :: gs)).map Prod.fst).dedup =
            t :: (gs.map Prod.fst).dedup := by
          rw [List.map_cons]
          exact List.dedup_cons_of_not_mem hnm
        rw [hd, List.length_cons]
        have := hMid.g_lt current gc hcur
        omega
    · exact phi_relax_improve hc hlt

theorem astarVisit_maint (start goal current : PState) (gc : Nat)
    (hv : ValidState start) (hcur_perm : current.Perm start) :
    ∀ (ms : List Nat) (o : List (Nat × PState))
      (cf : List (PState × Option PState)) (gs : List (PState × Nat)),
    (∀ m ∈ ms, m ∈ MOVES (List.indexOf 0 current)) →
    gs.lookup current = some gc →
    AstarMid start goal current o cf gs →
    ∃ o2 cf2 gs2,
      astarVisit current goal (List.indexOf 0 current) ms o cf gs =
        some (o2, cf2, gs2) ∧
      gs2.lookup current = some gc ∧
      AstarMid start goal current o2 cf2 gs2 ∧
      (∀ s g1, gs.lookup s = some g1 →
        ∃ g2, gs2.lookup s = some g2 ∧ g2 ≤ g1) ∧
      (∀ m ∈ ms, ∃ gt,
        gs2.lookup (swapIdx current (List.indexOf 0 current) m) = some gt ∧
        gt ≤ gc + 1) ∧
      astarPhi gs2 ≤ astarPhi gs ∧
      astarPhi gs2 + o2.length ≤ astarPhi gs + o.length := by
  intro ms
  induction ms with
  | nil =>
    intro o cf gs hms hcur hMid
    refine ⟨o, cf, gs, by simp [astarVisit], hcur, hMid, ?_, by simp, le_rfl,
      le_rfl⟩
    intro s g1 h
    exact ⟨g1, h, le_rfl⟩
  | cons m0 ms ih =>
    intro o cf gs hms hcur hMid
    have hmm : m0 ∈ MOVES (List.indexOf 0 current) := hms m0 (by simp)
    have hstep : StepOk current
        (swapIdx current (List.indexOf 0 current) m0) := ⟨m0, hmm, rfl⟩
    cases hn : gs.lookup (swapIdx current (List.indexOf 0 current) m0) with
    | none =>
      obtain ⟨hcur', hMid', hphi'⟩ :=
        astar_relax_one hv hcur_perm hstep hcur hMid (Or.inl hn)
      obtain ⟨o2, cf2, gs2, heq, hcur2, hMid2, hmono2, hms2, hphia, hphib⟩ :=
        ih (o ++ [(gc + 1 + h_misplaced
            (swapIdx current (List.indexOf 0 current) m0) goal,
            swapIdx current (List.indexOf 0 current) m0)])
          ((swapIdx current (List.indexOf 0 current) m0, some current) :: cf)
          ((swapIdx current (List.indexOf 0 current) m0, gc + 1) :: gs)
          (fun m2 hm2 => hms m2 (by simp [hm2])) hcur' hMid'
      refine ⟨o2, cf2, gs2, ?_, hcur2, hMid2, ?_, ?_, ?_, ?_⟩
      · rw [← heq]
        simp only [astarVisit, hcur, hn]
      · intro s g1 hs
        apply hmono2
        rw [lookup_cons_eq]
        by_cases hst : s = swapIdx current (List.indexOf 0 current) m0
        · subst hst; rw [hs] at hn; exact Option.noConfusion hn
        · rw [if_neg hst]; exact hs
      · intro mx hmx
        simp only [List.mem_cons] at hmx
        rcases hmx with hmx | hmx
        · subst hmx
          exact hmono2 _ (gc + 1) (by rw [lookup_cons_eq, if_pos rfl])
        · exact hms2 mx hmx
      · omega
      · rw [List.length_append, List.length_singleton] at hphib
        omega
    | some gn =>
      by_cases htl : gc + 1 < gn
      · obtain ⟨hcur', hMid', hphi'⟩ :=
          astar_relax_one hv hcur_perm hstep hcur hMid (Or.inr ⟨gn, hn, htl⟩)
        obtain ⟨o2, cf2, gs2, heq, hcur2, hMid2, hmono2, hms2, hphia, hphib⟩ :=
          ih (o ++ [(gc + 1 + h_misplaced
              (swapIdx current (List.indexOf 0 current) m0) goal,
              swapIdx current (List.indexOf 0 current) m0)])
            ((swapIdx current (List.indexOf 0 current) m0, some current) :: cf)
            ((swapIdx current (List.indexOf 0 current) m0, gc + 1) :: gs)
            (fun m2 hm2 => hms m2 (by simp [hm2])) hcur' hMid'
        refine ⟨o2, cf2, gs2, ?_, hcur2, hMid2, ?_, ?_, ?_, ?_⟩
        · rw [← heq]
          simp only [astarVisit, hcur, hn, if_pos htl]
        · intro s g1 hs
          by_cases hst : s = swapIdx current (List.indexOf 0 current) m0
          · subst hst
            rw [hs] at hn
            have hgn := Option.some.inj hn
            obtain ⟨g2, hg2, hle⟩ := hmono2 _ (gc + 1)
              (by rw [lookup_cons_eq, if_pos rfl])
            exact ⟨g2, hg2, by omega⟩
          · apply hmono2
            rw [lookup_cons_eq, if_neg hst]
            exact hs
        · intro mx hmx
          simp only [List.mem_cons] at hmx
          rcases hmx with hmx | hmx
          · subst hmx
            exact hmono2 _ (gc + 1) (by rw [lookup_cons_eq, if_pos rfl])
          · exact hms2 mx hmx
        · omega
        · rw [List.length_append, List.length_singleton] at hphib
          omega
      · obtain ⟨o2, cf2, gs2, heq, hcur2, hMid2, hmono2, hms2, hphia, hphib⟩ :=
          ih o cf gs (fun m2 hm2 => hms m2 (by simp [hm2])) hcur hMid
        refine ⟨o2, cf2, gs2, ?_, hcur2, hMid2, hmono2, ?_, hphia, hphib⟩
        · rw [← heq]
          simp only [astarVisit, hcur, hn, if_neg htl]
        · intro mx hmx
          simp only [List.mem_cons] at hmx
          rcases hmx with hmx | hmx
          · subst hmx
            obtain ⟨g2, hg2, hle⟩ := hmono2 _ gn hn
            exact ⟨g2, hg2, by omega⟩
          · exact hms2 mx hmx

/-! ### A* main loop -/

theorem astar_walk {start goal : PState} {o : List (Nat × PState)}
    {gs : List (PState × Nat)} (hv : ValidState start)
    (hrelax : ∀ s g, gs.lookup s = some g → GoodAt o goal s g ∨
      ∀ t ∈ pyNeighbors s, ∃ gt, gs.lookup t = some gt ∧ gt ≤ g + 1) :
    ∀ (j2 : Nat) (s : PState) (j1 g : Nat), ReachN j1 start s →
    ReachN j2 s goal → gs.lookup s = some g → g ≤ j1 →
    (∃ gg, gs.lookup goal = some gg ∧ gg ≤ j1 + j2) ∨
    (∃ f u, (f, u) ∈ o ∧ f ≤ j1 + j2) := by
  intro j2
  induction j2 with
  | zero =>
    intro s j1 g h1 h2 hg hgle
    have : goal = s := h2
    subst this
    left
    exact ⟨g, hg, by omega⟩
  | succ j2 ih =>
    intro s j1 g h1 h2 hg hgle
    rcases hrelax s g hg with hgood | hrel
    · right
      obtain ⟨f, hf, hfle⟩ := hgood
      refine ⟨f, s, hf, ?_⟩
      have hvs : ValidState s := reachN_valid h1 hv
      have hh := h_le_reachN h2 hvs
      omega
    · obtain ⟨u, hu, hr⟩ := h2
      obtain ⟨gu, hgu, hgule⟩ := hrel u hu
      have h1u : ReachN (j1 + 1) start u :=
        reachN_trans h1 (reachN_step (mem_pyNeighbors.mp hu))
      have hih := ih u (j1 + 1) gu h1u hr hgu (by omega)
      rcases hih with ⟨gg, hgg, hggle⟩ | ⟨f, u2, hf2, hfle⟩
      · left; exact ⟨gg, hgg, by omega⟩
      · right; exact ⟨f, u2, hf2, by omega⟩

theorem astarInv_pop {start goal current : PState} {f_min : Nat}
    {o : List (Nat × PState)} {cf : List (PState × Option PState)}
    {gs : List (PState × Nat)} (hInv : AstarInv start goal o cf gs)
    (hmem : (f_min, current) ∈ o) (hcg : current ≠ goal) :
    AstarMid start goal current (o.erase (f_min, current)) cf gs := by
  refine ⟨hInv.start_g, hInv.keys_iff, hInv.chain, hInv.g_bound, hInv.g_lt,
    hInv.keys_perm, ?_, ?_, ?_⟩
  · intro f s hfs
    exact hInv.o_g f s ((List.erase_sublist _ _).mem hfs)
  · intro s g hsg hnc
    rcases hInv.relax s g hsg with hgood | hrel
    · left
      obtain ⟨f, hf, hfle⟩ := hgood
      refine ⟨f, ?_, hfle⟩
      rw [List.mem_erase_of_ne]
      · exact hf
      · intro heq
        rw [Prod.mk.injEq] at heq
        exact hnc heq.2
    · right; exact hrel
  · intro hg
    obtain ⟨f, hf⟩ := hInv.goal_open hg
    refine ⟨f, ?_⟩
    rw [List.mem_erase_of_ne]
    · exact hf
    · intro heq
      rw [Prod.mk.injEq] at heq
      exact hcg heq.2.symm

theorem astarInv_rebuild {start goal current : PState} {gc : Nat}
    {o : List (Nat × PState)} {cf : List (PState × Option PState)}
    {gs : List (PState × Nat)}
    (hMid : AstarMid start goal current o cf gs)
    (hcur : gs.lookup current = some gc)
    (hnb : ∀ t ∈ pyNeighbors current, ∃ gt, gs.lookup t = some gt ∧
      gt ≤ gc + 1) :
    AstarInv start goal o cf gs := by
  refine ⟨hMid.start_g, hMid.keys_iff, hMid.chain, hMid.g_bound, hMid.g_lt,
    hMid.keys_perm, hMid.o_g, ?_, hMid.goal_open⟩
  intro s g hsg
  by_cases hsc : s = current
  · subst hsc
    rw [hcur] at hsg
    have := Option.some.inj hsg
    subst this
    right
    exact hnb
  · exact hMid.relax2 s g hsg hsc

theorem astarAux_succ (fuel : Nat) (o : List (Nat × PState))
    (cf : List (PState × Option PState)) (gs : List (PState × Nat))
    (expanded : Nat) (goal : PState) :
    astarAux (fuel + 1) o cf gs expanded goal =
      match popMin o with
      | none => .out none expanded
      | some ((_, current), opn) =>
        if current == goal then
          match reconstruct_path cf current with
          | none => .diverge
          | some p => .out (some p) (expanded + 1)
        else
          match astarVisit current goal (List.indexOf 0 current)
              (MOVES (List.indexOf 0 current)) opn cf gs with
          | none => .keyError
          | some (o2, cf2, g2) => astarAux fuel o2 cf2 g2 (expanded + 1) goal
      := rfl

theorem astarAux_spec (start goal : PState) (hv : ValidState start) :
    ∀ (fuel : Nat) (o : List (Nat × PState))
      (cf : List (PState × Option PState)) (gs : List (PState × Nat))
      (expanded : Nat),
    AstarInv start goal o cf gs →
    (npuz + 1) * astarPhi gs + o.length + 1 ≤ fuel →
    (∃ p e, astarAux fuel o cf gs expanded goal = .out (some p) e ∧
      PathOk p ∧ p.head? = some start ∧ p.getLast? = some goal ∧
      IsMinDist start goal (p.length - 1)) ∨
    ((∃ e, astarAux fuel o cf gs expanded goal = .out none e) ∧
      ¬ Reachable start goal) := by
  intro fuel
  induction fuel with
  | zero =>
    intro o cf gs expanded hInv hf
    omega
  | succ fuel ih =>
    intro o cf gs expanded hInv hf
    rw [astarAux_succ]
    cases hpop : popMin o with
    | none =>
      have ho : o = [] := popMin_eq_none.mp hpop
      subst ho
      right
      refine ⟨⟨expanded, rfl⟩, ?_⟩
      rintro ⟨n, hr⟩
      have hw := astar_walk hv (fun s g h => hInv.relax s g h) n start 0 0
        rfl hr hInv.start_g (le_refl 0)
      rcases hw with ⟨gg, hgg, hggle⟩ | ⟨f, u, hf2, hfle⟩
      · obtain ⟨f2, hf2⟩ := hInv.goal_open (by rw [hgg]; rfl)
        simp at hf2
      · simp at hf2
    | some mrest =>
      obtain ⟨⟨f_min, current⟩, opn⟩ := mrest
      obtain ⟨hmem, hrest, hmin⟩ := popMin_spec hpop
      subst hrest
      obtain ⟨gc, hgc, hgcf⟩ := hInv.o_g f_min current hmem
      have hcur_perm := hInv.keys_perm current (by rw [hgc]; rfl)
      have hcur_valid : ValidState current := hcur_perm.trans hv
      by_cases hcg : current = goal
      · subst hcg
        have hkey_cf : (cf.lookup current).isSome :=
          (hInv.keys_iff current).mp (by rw [hgc]; rfl)
        have hgb := hInv.g_bound current gc hgc
        have hdep : gdep gs current = gc := gdep_eq hgc
        obtain ⟨p, hrec, hp, hh, hl, hplen⟩ :=
          reconstruct_spec hInv.chain hkey_cf (by rw [hdep]; omega)
        left
        refine ⟨p, expanded + 1, ?_, hp, hh, hl, ?_⟩
        · simp only [beq_self_eq_true, if_true, hrec]
        · have hreach : Reachable start current := by
            obtain ⟨k0, hk0le, hk0⟩ :=
              chain_reach hInv.chain (gdep gs current) current le_rfl hkey_cf
            exact ⟨k0, hk0⟩
          obtain ⟨dstar, hds⟩ := reachable_dist hreach
          have hgoal_le : gc ≤ dstar := by
            have hw := astar_walk hv (fun s g h => hInv.relax s g h) dstar
              start 0 0 rfl hds.1 hInv.start_g (le_refl 0)
            rcases hw with ⟨gg, hgg, hggle⟩ | ⟨f, u, hfu, hfle⟩
            · rw [hgc] at hgg
              have := Option.some.inj hgg
              omega
            · have hminf := entryLe_fst (hmin (f, u) hfu)
              omega
          have hreach2 : ReachN (p.length - 1) start current :=
            reachN_of_path hp hh hl
          have hone : 1 ≤ p.length := by
            cases p with
            | nil => simp at hh
            | cons a l => simp
          have hle1 : p.length - 1 ≤ gc := by
            rw [hdep] at hplen
            omega
          have heq : p.length - 1 = dstar :=
            Nat.le_antisymm (by omega) (hds.2 _ hreach2)
          rw [heq]
          exact hds
      · have hMid : AstarMid start goal current (o.erase (f_min, current))
            cf gs := astarInv_pop hInv hmem hcg
        obtain ⟨o2, cf2, gs2, hveq, hcur2, hMid2, hmono2, hms2, hphia,
          hphib⟩ := astarVisit_maint start goal current gc hv hcur_perm
            (MOVES (List.indexOf 0 current)) (o.erase (f_min, current)) cf gs
            (fun m hm => hm) hgc hMid
        have hInv2 : AstarInv start goal o2 cf2 gs2 := by
          apply astarInv_rebuild hMid2 hcur2
          intro t ht
          unfold pyNeighbors at ht
          rw [List.mem_map] at ht
          obtain ⟨m, hm, heq⟩ := ht
          rw [← heq]
          exact hms2 m hm
        have hbeq : (current == goal) = false := beq_eq_false_iff_ne.mpr hcg
        have hred : (match astarVisit current goal (List.indexOf 0 current)
              (MOVES (List.indexOf 0 current)) (o.erase (f_min, current))
              cf gs with
            | none => PyResult.keyError
            | some (o2, cf2, g2) =>
              astarAux fuel o2 cf2 g2 (expanded + 1) goal) =
            astarAux fuel o2 cf2 gs2 (expanded + 1) goal := by
          rw [hveq]
        simp only [hbeq, Bool.false_eq_true, if_false, hred]
        apply ih o2 cf2 gs2 (expanded + 1) hInv2
        have hoe : (o.erase (f_min, current)).length = o.length - 1 :=
          List.length_erase_of_mem hmem
        have hop : 1 ≤ o.length := by
          cases o with
          | nil => simp at hmem
          | cons a l => simp
        have hml : npuz * astarPhi gs2 ≤ npuz * astarPhi gs :=
          Nat.mul_le_mul_left npuz hphia
        have hexp1 : (npuz + 1) * astarPhi gs2 =
            npuz * astarPhi gs2 + astarPhi gs2 := by ring
        have hexp2 : (npuz + 1) * astarPhi gs =
            npuz * astarPhi gs + astarPhi gs := by ring
        omega

theorem astarInv_init (start goal : PState) :
    AstarInv start goal [(0, start)] [(start, none)] [(start, 0)] := by
  have hlk : ∀ s : PState, List.lookup s [(start, (0 : Nat))] =
      if s = start then some 0 else none := by
    intro s
    rw [lookup_cons_eq]
    split <;> rfl
  have hlkc : ∀ s : PState, List.lookup s [(start, (none : Option PState))] =
      if s = start then some none else none := by
    intro s
    rw [lookup_cons_eq]
    split <;> rfl
  have hkey : ∀ s : PState, (List.lookup s [(start, (0 : Nat))]).isSome →
      s = start := by
    intro s hs
    rw [hlk] at hs
    by_cases h : s = start
    · exact h
    · rw [if_neg h] at hs; simp at hs
  refine ⟨by rw [hlk, if_pos rfl], ?_, ⟨by rw [hlkc, if_pos rfl], ?_⟩, ?_, ?_,
    ?_, ?_, ?_, ?_⟩
  · intro s
    rw [hlk, hlkc]
    by_cases h : s = start
    · rw [if_pos h, if_pos h]; simp
    · rw [if_neg h, if_neg h]; simp
  · intro s v hsv hns
    rw [hlkc] at hsv
    by_cases h : s = start
    · exact absurd h hns
    · rw [if_neg h] at hsv; exact Option.noConfusion hsv
  · intro s g hsg
    rw [hlk] at hsg
    by_cases h : s = start
    · rw [if_pos h] at hsg
      have := Option.some.inj hsg
      subst this
      simp
    · rw [if_neg h] at hsg; exact Option.noConfusion hsg
  · intro s g hsg
    rw [hlk] at hsg
    by_cases h : s = start
    · rw [if_pos h] at hsg
      have := Option.some.inj hsg
      subst this
      simp
    · rw [if_neg h] at hsg; exact Option.noConfusion hsg
  · intro s hs
    have := hkey s hs
    subst this
    exact List.Perm.refl s
  · intro f s hfs
    simp only [List.mem_singleton, Prod.mk.injEq] at hfs
    obtain ⟨hf, hs⟩ := hfs
    subst hf; subst hs
    exact ⟨0, by rw [hlk, if_pos rfl], le_rfl⟩
  · intro s g hsg
    have hst := hkey s (by rw [hsg]; rfl)
    subst hst
    rw [hlk, if_pos rfl] at hsg
    have := Option.some.inj hsg
    subst this
    left
    exact ⟨0, by simp, by omega⟩
  · intro hg
    have := hkey goal hg
    subst this
    exact ⟨0, by simp⟩

theorem a_star_spec (start goal : PState) (hv : ValidState start) :
    (∃ p e, a_star_misplaced start goal = .out (some p) e ∧ PathOk p ∧
      p.head? = some start ∧ p.getLast? = some goal ∧
      IsMinDist start goal (p.length - 1)) ∨
    ((∃ e, a_star_misplaced start goal = .out none e) ∧
      ¬ Reachable start goal) := by
  unfold a_star_misplaced astarFuel
  apply astarAux_spec start goal hv _ _ _ _ _ (astarInv_init start goal)
  have h1 : ((([(start, (0 : Nat))]).map Prod.fst).dedup) = [start] := by
    simp
  have h2 : gSum [(start, (0 : Nat))] = 0 := by
    unfold gSum
    rw [h1]
    simp only [List.map_cons, List.map_nil, List.sum_cons, List.sum_nil]
    rw [gdep_cons_self]
    rfl
  unfold astarPhi
  rw [h1, h2]
  simp only [List.length_singleton, List.length_cons, List.length_nil, npuz]
  norm_num

theorem a_star_self (s : PState) : a_star_misplaced s s = .out (some [s]) 1 := by
  have hfuel : (10 : Nat) ^ 17 = (10 ^ 17 - 1) + 1 := by norm_num
  show astarAux (10 ^ 17) [(0, s)] [(s, none)] [(s, 0)] 0 s = _
  rw [hfuel, astarAux_succ]
  have hpop : popMin [(0, s)] = some ((0, s), []) := by
    simp [popMin, findMin, List.erase_cons_head]
  rw [hpop]
  have hrec : reconstruct_path [(s, (none : Option PState))] s = some [s] := by
    show reconAux (1 + 1) [(s, none)] s [s] = some [s]
    simp only [reconAux, lookup_cons_eq, if_pos rfl]
    rfl
  simp only [beq_self_eq_true, if_true, hrec]

/-! ### Theorems for the claims -/

/-- C1: for every pair of valid states such that the goal is reachable from
the start by blank-tile moves, `bfs` returns a path whose number of edges
(`length - 1`) equals the minimum number of moves from start to goal. -/
theorem claim_C1 (start goal : PState) (hs : ValidState start)
    (hg : ValidState goal) (hr : Reachable start goal) :
    ∃ p e, bfs start goal = .out (some p) e ∧
      IsMinDist start goal (p.length - 1) := by
  rcases bfs_spec start goal hs with ⟨p, e, heq, _, _, _, hmin⟩ | ⟨_, hnr⟩
  · exact ⟨p, e, heq, hmin⟩
  · exact absurd hr hnr

/-- Witness for C1 at a concrete reachable pair one move apart. -/
theorem claim_C1_witness :
    ValidState [1, 2, 3, 4, 5, 6, 7, 0, 8] ∧
    ValidState [1, 2, 3, 4, 5, 6, 7, 8, 0] ∧
    Reachable [1, 2, 3, 4, 5, 6, 7, 0, 8] [1, 2, 3, 4, 5, 6, 7, 8, 0] ∧
    ∃ p e, bfs [1, 2, 3, 4, 5, 6, 7, 0, 8] [1, 2, 3, 4, 5, 6, 7, 8, 0] =
        .out (some p) e ∧
      IsMinDist [1, 2, 3, 4, 5, 6, 7, 0, 8] [1, 2, 3, 4, 5, 6, 7, 8, 0]
        (p.length - 1) :=
  ⟨by decide, by decide, ⟨1, by decide⟩,
    claim_C1 _ _ (by decide) (by decide) ⟨1, by decide⟩⟩

/-- C2: on valid states both searches terminate with a Python return value,
and each returns the not-found signal (a `None` path) exactly when the goal
is unreachable from the start. -/
theorem claim_C2 (start goal : PState) (hs : ValidState start)
    (hg : ValidState goal) :
    (∃ r e, bfs start goal = .out r e) ∧
    (∃ r e, a_star_misplaced start goal = .out r e) ∧
    ((∃ e, bfs start goal = .out none e) ↔ ¬ Reachable start goal) ∧
    ((∃ e, a_star_misplaced start goal = .out none e) ↔
      ¬ Reachable start goal) := by
  rcases bfs_spec start goal hs with ⟨p, e, heq, hp, hh, hl, hmin⟩ |
    ⟨⟨e, heq⟩, hnr⟩ <;>
  rcases a_star_spec start goal hs with ⟨p2, e2, heq2, hp2, hh2, hl2, hmin2⟩ |
    ⟨⟨e2, heq2⟩, hnr2⟩
  · have hr : Reachable start goal :=
      ⟨p.length - 1, reachN_of_path hp hh hl⟩
    refine ⟨⟨some p, e, heq⟩, ⟨some p2, e2, heq2⟩, ?_, ?_⟩
    · constructor
      · rintro ⟨e3, heq3⟩
        rw [heq] at heq3
        injection heq3 with h1 h2
        exact Option.noConfusion h1
      · intro hnr3
        exact absurd hr hnr3
    · constructor
      · rintro ⟨e3, heq3⟩
        rw [heq2] at heq3
        injection heq3 with h1 h2
        exact Option.noConfusion h1
      · intro hnr3
        exact absurd hr hnr3
  · exact absurd ⟨p.length - 1, reachN_of_path hp hh hl⟩ hnr2
  · exact absurd ⟨p2.length - 1, reachN_of_path hp2 hh2 hl2⟩ hnr
  · refine ⟨⟨none, e, heq⟩, ⟨none, e2, heq2⟩, ?_, ?_⟩
    · exact ⟨fun _ => hnr, fun _ => ⟨e, heq⟩⟩
    · exact ⟨fun _ => hnr2, fun _ => ⟨e2, heq2⟩⟩

/-- Witness for C2 at a concrete pair of valid states. -/
theorem claim_C2_witness :
    ValidState [1, 2, 3, 4, 5, 6, 7, 8, 0] ∧
    ((∃ r e, bfs [1, 2, 3, 4, 5, 6, 7, 8, 0] [1, 2, 3, 4, 5, 6, 7, 8, 0] =
      .out r e) ∧
    (∃ r e, a_star_misplaced [1, 2, 3, 4, 5, 6, 7, 8, 0]
      [1, 2, 3, 4, 5, 6, 7, 8, 0] = .out r e) ∧
    ((∃ e, bfs [1, 2, 3, 4, 5, 6, 7, 8, 0] [1, 2, 3, 4, 5, 6, 7, 8, 0] =
      .out none e) ↔
      ¬ Reachable [1, 2, 3, 4, 5, 6, 7, 8, 0] [1, 2, 3, 4, 5, 6, 7, 8, 0]) ∧
    ((∃ e, a_star_misplaced [1, 2, 3, 4, 5, 6, 7, 8, 0]
      [1, 2, 3, 4, 5, 6, 7, 8, 0] = .out none e) ↔
      ¬ Reachable [1, 2, 3, 4, 5, 6, 7, 8, 0] [1, 2, 3, 4, 5, 6, 7, 8, 0])) :=
  ⟨by decide, claim_C2 _ _ (by decide) (by decide)⟩

/-- C3: on every valid reachable pair, the paths returned by `bfs` and by
`a_star_misplaced` have equal length (both are optimal). -/
theorem claim_C3 (start goal : PState) (hs : ValidState start)
    (hg : ValidState goal) (hr : Reachable start goal) :
    ∃ p1 e1 p2 e2, bfs start goal = .out (some p1) e1 ∧
      a_star_misplaced start goal = .out (some p2) e2 ∧
      p1.length = p2.length := by
  rcases bfs_spec start goal hs with ⟨p1, e1, heq1, hp1, hh1, hl1, hmin1⟩ |
    ⟨_, hnr⟩
  · rcases a_star_spec start goal hs with
      ⟨p2, e2, heq2, hp2, hh2, hl2, hmin2⟩ | ⟨_, hnr2⟩
    · refine ⟨p1, e1, p2, e2, heq1, heq2, ?_⟩
      have hd : p1.length - 1 = p2.length - 1 :=
        Nat.le_antisymm (hmin1.2 _ hmin2.1) (hmin2.2 _ hmin1.1)
      have h1 : 1 ≤ p1.length := by
        cases p1 with
        | nil => simp at hh1
        | cons a l => simp
      have h2 : 1 ≤ p2.length := by
        cases p2 with
        | nil => simp at hh2
        | cons a l => simp
      omega
    · exact absurd hr hnr2
  · exact absurd hr hnr

/-- Witness for C3 at a concrete reachable pair. -/
theorem claim_C3_witness :
    ValidState [1, 2, 0, 4, 5, 3, 7, 8, 6] ∧
    ValidState [1, 2, 3, 4, 5, 6, 7, 8, 0] ∧
    Reachable [1, 2, 0, 4, 5, 3, 7, 8, 6] [1, 2, 3, 4, 5, 6, 7, 8, 0] ∧
    ∃ p1 e1 p2 e2,
      bfs [1, 2, 0, 4, 5, 3, 7, 8, 6] [1, 2, 3, 4, 5, 6, 7, 8, 0] =
        .out (some p1) e1 ∧
      a_star_misplaced [1, 2, 0, 4, 5, 3, 7, 8, 6] [1, 2, 3, 4, 5, 6, 7, 8, 0]
        = .out (some p2) e2 ∧
      p1.length = p2.length :=
  ⟨by decide, by decide, ⟨2, by decide⟩,
    claim_C3 _ _ (by decide) (by decide) ⟨2, by decide⟩⟩

/-- C4: whenever either search returns a non-`None` path, that path starts
with the start state, ends with the goal state, and every consecutive pair
of states differs by exactly one swap of the blank with a tile whose
position is adjacent (per `MOVES`) to the blank's prior position. -/
theorem claim_C4 (start goal : PState) (p : List PState) (e : Nat)
    (hs : ValidState start)
    (h : bfs start goal = .out (some p) e ∨
      a_star_misplaced start goal = .out (some p) e) :
    p.head? = some start ∧ p.getLast? = some goal ∧ PathOk p := by
  rcases h with h | h
  · rcases bfs_spec start goal hs with ⟨p1, e1, heq1, hp1, hh1, hl1, _⟩ |
      ⟨⟨e1, heq1⟩, _⟩
    · rw [h] at heq1
      injection heq1 with h1 h2
      have := Option.some.inj h1
      subst this
      exact ⟨hh1, hl1, hp1⟩
    · rw [h] at heq1
      injection heq1 with h1 h2
      exact Option.noConfusion h1
  · rcases a_star_spec start goal hs with ⟨p1, e1, heq1, hp1, hh1, hl1, _⟩ |
      ⟨⟨e1, heq1⟩, _⟩
    · rw [h] at heq1
      injection heq1 with h1 h2
      have := Option.some.inj h1
      subst this
      exact ⟨hh1, hl1, hp1⟩
    · rw [h] at heq1
      injection heq1 with h1 h2
      exact Option.noConfusion h1

/-- Witness for C4 at a concrete run of `bfs`. -/
theorem claim_C4_witness :
    ValidState [1, 2, 3, 4, 5, 6, 7, 8, 0] ∧
    bfs [1, 2, 3, 4, 5, 6, 7, 8, 0] [1, 2, 3, 4, 5, 6, 7, 8, 0] =
      .out (some [[1, 2, 3, 4, 5, 6, 7, 8, 0]]) 1 ∧
    ([[1, 2, 3, 4, 5, 6, 7, 8, 0]] : List PState).head? =
      some [1, 2, 3, 4, 5, 6, 7, 8, 0] ∧
    ([[1, 2, 3, 4, 5, 6, 7, 8, 0]] : List PState).getLast? =
      some [1, 2, 3, 4, 5, 6, 7, 8, 0] ∧
    PathOk [[1, 2, 3, 4, 5, 6, 7, 8, 0]] :=
  ⟨by decide, by decide,
    claim_C4 _ _ _ 1 (by decide) (Or.inl (by decide))⟩

/-- C6: the misplaced-tile heuristic never exceeds the minimum number of
blank-tile moves from `s` to `goal` (it is admissible). -/
theorem claim_C6 (s goal : PState) (hs : ValidState s) (hg : ValidState goal)
    (d : Nat) (hd : IsMinDist s goal d) : h_misplaced s goal ≤ d :=
  h_le_reachN hd.1 hs

/-- Witness for C6 at a concrete pair at distance 1. -/
theorem claim_C6_witness :
    ValidState [1, 2, 3, 4, 5, 6, 7, 0, 8] ∧
    ValidState [1, 2, 3, 4, 5, 6, 7, 8, 0] ∧
    IsMinDist [1, 2, 3, 4, 5, 6, 7, 0, 8] [1, 2, 3, 4, 5, 6, 7, 8, 0] 1 ∧
    h_misplaced [1, 2, 3, 4, 5, 6, 7, 0, 8] [1, 2, 3, 4, 5, 6, 7, 8, 0] ≤ 1 := by
  have hmin : IsMinDist [1, 2, 3, 4, 5, 6, 7, 0, 8]
      [1, 2, 3, 4, 5, 6, 7, 8, 0] 1 := by
    refine ⟨by decide, ?_⟩
    intro k hk
    match k with
    | 0 => exact absurd hk (by decide)
    | k + 1 => omega
  exact ⟨by decide, by decide, hmin,
    claim_C6 _ _ (by decide) (by decide) 1 hmin⟩

/-- C7: when start and goal coincide, each search returns the one-element
path consisting of that state and an expanded count of exactly 1. -/
theorem claim_C7 (s : PState) (hs : ValidState s) :
    bfs s s = .out (some [s]) 1 ∧ a_star_misplaced s s = .out (some [s]) 1 :=
  ⟨bfs_self s, a_star_self s⟩

/-- Witness for C7 at the canonical goal state. -/
theorem claim_C7_witness :
    ValidState [1, 2, 3, 4, 5, 6, 7, 8, 0] ∧
    bfs [1, 2, 3, 4, 5, 6, 7, 8, 0] [1, 2, 3, 4, 5, 6, 7, 8, 0] =
      .out (some [[1, 2, 3, 4, 5, 6, 7, 8, 0]]) 1 ∧
    a_star_misplaced [1, 2, 3, 4, 5, 6, 7, 8, 0] [1, 2, 3, 4, 5, 6, 7, 8, 0] =
      .out (some [[1, 2, 3, 4, 5, 6, 7, 8, 0]]) 1 :=
  ⟨by decide, claim_C7 _ (by decide)⟩

/-- C9 counterexample: `reconstruct_path` does not fail when the goal is
missing from the predecessor map — it returns the one-element path — so
"fails iff goal is not a key" is false at the empty map. -/
theorem claim_C9_counterexample :
    ¬ ((reconstruct_path [] [1, 2, 3, 4, 5, 6, 7, 8, 0] = none) ↔
      (List.lookup [1, 2, 3, 4, 5, 6, 7, 8, 0]
        ([] : List (PState × Option PState)) = none)) := by
  decide

/-- C9 amended: `reconstruct_path` never fails; if the goal is not a key of
the predecessor map it returns the one-element path `[goal]`, and on every
predecessor map produced by a search for the goal that the search just
matched, the returned reconstruction is the ordered start-to-goal move
sequence. -/
theorem claim_C9_amended :
    (∀ (cf : List (PState × Option PState)) (g : PState),
      cf.lookup g = none → reconstruct_path cf g = some [g]) ∧
    (∀ (start goal : PState) (p : List PState) (e : Nat), ValidState start →
      (bfs start goal = .out (some p) e ∨
        a_star_misplaced start goal = .out (some p) e) →
      p.head? = some start ∧ p.getLast? = some goal ∧ PathOk p) := by
  constructor
  · intro cf g h
    unfold reconstruct_path
    simp only [reconAux, h]
    rfl
  · intro start goal p e hs h
    rcases h with h | h
    · rcases bfs_spec start goal hs with ⟨p1, e1, heq1, hp1, hh1, hl1, _⟩ |
        ⟨⟨e1, heq1⟩, _⟩
      · rw [h] at heq1
        injection heq1 with h1 h2
        have := Option.some.inj h1
        subst this
        exact ⟨hh1, hl1, hp1⟩
      · rw [h] at heq1
        injection heq1 with h1 h2
        exact Option.noConfusion h1
    · rcases a_star_spec start goal hs with ⟨p1, e1, heq1, hp1, hh1, hl1, _⟩ |
        ⟨⟨e1, heq1⟩, _⟩
      · rw [h] at heq1
        injection heq1 with h1 h2
        have := Option.some.inj h1
        subst this
        exact ⟨hh1, hl1, hp1⟩
      · rw [h] at heq1
        injection heq1 with h1 h2
        exact Option.noConfusion h1

/-- Witness for the amended C9: the no-key case returns the singleton, and
a concrete search-produced map round-trips. -/
theorem claim_C9_amended_witness :
    (List.lookup [1, 2, 3, 4, 5, 6, 7, 8, 0]
      ([] : List (PState × Option PState)) = none) ∧
    reconstruct_path [] [1, 2, 3, 4, 5, 6, 7, 8, 0] =
      some [[1, 2, 3, 4, 5, 6, 7, 8, 0]] ∧
    ValidState [1, 2, 3, 4, 5, 6, 7, 8, 0] ∧
    (([[1, 2, 3, 4, 5, 6, 7, 8, 0]] : List PState).head? =
      some [1, 2, 3, 4, 5, 6, 7, 8, 0] ∧
    ([[1, 2, 3, 4, 5, 6, 7, 8, 0]] : List PState).getLast? =
      some [1, 2, 3, 4, 5, 6, 7, 8, 0] ∧
    PathOk [[1, 2, 3, 4, 5, 6, 7, 8, 0]]) :=
  ⟨rfl, claim_C9_amended.1 [] _ rfl, by decide,
    claim_C9_amended.2 _ _ _ 1 (by decide) (Or.inl (by decide))⟩

/-- C10: the solvability gate of the solve handler depends only on the
start state; for any two goal states it returns the same verdict. -/
theorem claim_C10 (start g1 g2 : PState) :
    solve_gate start g1 = solve_gate start g2 := rfl

/-! ### Parity of the inversion count is invariant under moves -/

theorem invPairs_append : ∀ (A B : List Nat), invPairs (A ++ B) =
    invPairs A + invPairs B +
      (A.map (fun a => B.countP (fun y => decide (y < a)))).sum := by
  intro A B
  induction A with
  | nil => simp [invPairs]
  | cons a A ih =>
    show (A ++ B).countP (fun y => decide (y < a)) + invPairs (A ++ B) = _
    rw [List.countP_append, ih]
    simp only [invPairs, List.map_cons, List.sum_cons]
    omega

theorem sum_map_add {α : Type} (A : List α) (f g : α → Nat) :
    (A.map (fun a => f a + g a)).sum = (A.map f).sum + (A.map g).sum := by
  induction A with
  | nil => simp
  | cons a A ih =>
    simp only [List.map_cons, List.sum_cons, ih]
    omega

theorem invPairs_mid_perm (C C2 A B : List Nat) (hp : C.Perm C2) :
    invPairs (A ++ C ++ B) + invPairs C2 =
      invPairs (A ++ C2 ++ B) + invPairs C := by
  have hx : ∀ D : List Nat, invPairs (A ++ D ++ B) =
      invPairs A + invPairs D + invPairs B +
      (A.map (fun a => D.countP (fun y => decide (y < a)))).sum +
      (A.map (fun a => B.countP (fun y => decide (y < a)))).sum +
      (D.map (fun d => B.countP (fun y => decide (y < d)))).sum := by
    intro D
    rw [List.append_assoc, invPairs_append, invPairs_append]
    have hc : (A.map (fun a => (D ++ B).countP (fun y => decide (y < a)))).sum
        = (A.map (fun a => D.countP (fun y => decide (y < a)))).sum +
          (A.map (fun a => B.countP (fun y => decide (y < a)))).sum := by
      rw [← sum_map_add]
      congr 1
      apply List.map_congr_left
      intro a _
      rw [List.countP_append]
    rw [hc]
    omega
  rw [hx C, hx C2]
  have h1 : (A.map (fun a => C.countP (fun y => decide (y < a)))).sum =
      (A.map (fun a => C2.countP (fun y => decide (y < a)))).sum := by
    congr 1
    apply List.map_congr_left
    intro a _
    exact List.Perm.countP_eq _ hp
  have h2 : (C.map (fun d => B.countP (fun y => decide (y < d)))).sum =
      (C2.map (fun d => B.countP (fun y => decide (y < d)))).sum :=
    (hp.map _).sum_eq
  omega

theorem rot3_parity (x t1 t2 : Nat) (h1 : t1 ≠ x) (h2 : t2 ≠ x) :
    invPairs [x, t1, t2] % 2 = invPairs [t1, t2, x] % 2 := by
  simp only [invPairs, List.countP_cons, List.countP_nil,
    decide_eq_true_eq]
  split_ifs <;> omega

theorem set_append_len : ∀ (P : List Nat) (u y : Nat) (R : List Nat),
    (P ++ u :: R).set P.length y = P ++ y :: R := by
  intro P
  induction P with
  | nil => intro u y R; rfl
  | cons p P ih =>
    intro u y R
    show p :: ((P ++ u :: R).set P.length y) = p :: (P ++ y :: R)
    rw [ih]

theorem getD_append_len : ∀ (P : List Nat) (u : Nat) (R : List Nat),
    (P ++ u :: R).getD P.length 0 = u := by
  intro P
  induction P with
  | nil => intro u R; rfl
  | cons p P ih =>
    intro u R
    simp only [List.cons_append, List.length_cons, List.getD_cons_succ]
    exact ih u R

theorem valid_getD_inj {s : PState} (hv : ValidState s) {p q : Nat}
    (hp : p < 9) (hq : q < 9) (hne : p ≠ q) : s.getD p 0 ≠ s.getD q 0 := by
  have hlen := valid_length hv
  have hp2 : p < s.length := by omega
  have hq2 : q < s.length := by omega
  rw [List.getD_eq_getElem s 0 hp2, List.getD_eq_getElem s 0 hq2]
  intro h
  exact hne (((valid_nodup hv).getElem_inj_iff).mp h)

theorem split_at2 (s : PState) {c : Nat} (h : c + 2 ≤ s.length) :
    s = s.take c ++ s.getD c 0 :: s.getD (c + 1) 0 :: s.drop (c + 2) := by
  have e1 : s.drop c = s.getD c 0 :: s.drop (c + 1) := by
    rw [List.drop_eq_getElem_cons (show c < s.length by omega)]
    rw [List.getD_eq_getElem s 0 (show c < s.length by omega)]
  have e2 : s.drop (c + 1) = s.getD (c + 1) 0 :: s.drop (c + 2) := by
    rw [List.drop_eq_getElem_cons (show c + 1 < s.length by omega)]
    rw [List.getD_eq_getElem s 0 (show c + 1 < s.length by omega)]
  conv_lhs => rw [← List.take_append_drop c s]
  rw [e1, e2]

theorem split_at4 (s : PState) {c : Nat} (h : c + 4 ≤ s.length) :
    s = s.take c ++ s.getD c 0 :: s.getD (c + 1) 0 :: s.getD (c + 2) 0 ::
      s.getD (c + 3) 0 :: s.drop (c + 4) := by
  have e1 : s.drop c = s.getD c 0 :: s.drop (c + 1) := by
    rw [List.drop_eq_getElem_cons (show c < s.length by omega)]
    rw [List.getD_eq_getElem s 0 (show c < s.length by omega)]
  have e2 : s.drop (c + 1) = s.getD (c + 1) 0 :: s.drop (c + 2) := by
    rw [List.drop_eq_getElem_cons (show c + 1 < s.length by omega)]
    rw [List.getD_eq_getElem s 0 (show c + 1 < s.length by omega)]
  have e3 : s.drop (c + 2) = s.getD (c + 2) 0 :: s.drop (c + 3) := by
    rw [List.drop_eq_getElem_cons (show c + 2 < s.length by omega)]
    rw [List.getD_eq_getElem s 0 (show c + 2 < s.length by omega)]
  have e4 : s.drop (c + 3) = s.getD (c + 3) 0 :: s.drop (c + 4) := by
    rw [List.drop_eq_getElem_cons (show c + 3 < s.length by omega)]
    rw [List.getD_eq_getElem s 0 (show c + 3 < s.length by omega)]
  conv_lhs => rw [← List.take_append_drop c s]
  rw [e1, e2, e3, e4]

theorem MOVES_diff {b m : Nat} (h : m ∈ MOVES b) :
    m = b + 1 ∨ b = m + 1 ∨ m = b + 3 ∨ b = m + 3 := by
  unfold MOVES at h
  split at h <;> simp_all <;> omega


theorem set_append_len1 (P : List Nat) (u w y : Nat) (R : List Nat) :
    (P ++ u :: w :: R).set (P.length + 1) y = P ++ u :: y :: R := by
  have h : P ++ u :: w :: R = (P ++ [u]) ++ w :: R := by simp
  have h2 : P.length + 1 = (P ++ [u]).length := by simp
  rw [h, h2, set_append_len]
  simp

theorem getD_append_len1 (P : List Nat) (u w : Nat) (R : List Nat) :
    (P ++ u :: w :: R).getD (P.length + 1) 0 = w := by
  have h : P ++ u :: w :: R = (P ++ [u]) ++ w :: R := by simp
  have h2 : P.length + 1 = (P ++ [u]).length := by simp
  rw [h, h2, getD_append_len]

theorem set_append_len3 (P : List Nat) (a c d u y : Nat) (R : List Nat) :
    (P ++ a :: c :: d :: u :: R).set (P.length + 3) y =
      P ++ a :: c :: d :: y :: R := by
  have h : P ++ a :: c :: d :: u :: R = (P ++ [a, c, d]) ++ u :: R := by simp
  have h2 : P.length + 3 = (P ++ [a, c, d]).length := by simp
  rw [h, h2, set_append_len]
  simp

theorem getD_append_len3 (P : List Nat) (a c d u : Nat) (R : List Nat) :
    (P ++ a :: c :: d :: u :: R).getD (P.length + 3) 0 = u := by
  have h : P ++ a :: c :: d :: u :: R = (P ++ [a, c, d]) ++ u :: R := by simp
  have h2 : P.length + 3 = (P ++ [a, c, d]).length := by simp
  rw [h, h2, getD_append_len]

theorem swap_adj (P : List Nat) (x : Nat) (D : List Nat) :
    swapIdx (P ++ 0 :: x :: D) P.length (P.length + 1) = P ++ x :: 0 :: D := by
  unfold swapIdx
  rw [getD_append_len1, getD_append_len, set_append_len, set_append_len1]

theorem swap_adj2 (P : List Nat) (x : Nat) (D : List Nat) :
    swapIdx (P ++ x :: 0 :: D) (P.length + 1) P.length = P ++ 0 :: x :: D := by
  unfold swapIdx
  rw [getD_append_len1, getD_append_len, set_append_len1, set_append_len]

theorem swap_vert (P : List Nat) (t1 t2 x : Nat) (D : List Nat) :
    swapIdx (P ++ 0 :: t1 :: t2 :: x :: D) P.length (P.length + 3) =
      P ++ x :: t1 :: t2 :: 0 :: D := by
  unfold swapIdx
  rw [getD_append_len3, getD_append_len, set_append_len, set_append_len3]

theorem swap_vert2 (P : List Nat) (x t1 t2 : Nat) (D : List Nat) :
    swapIdx (P ++ x :: t1 :: t2 :: 0 :: D) (P.length + 3) P.length =
      P ++ 0 :: t1 :: t2 :: x :: D := by
  unfold swapIdx
  rw [getD_append_len3, getD_append_len, set_append_len3, set_append_len]

theorem perm_rot3 (a c d : Nat) : List.Perm [a, c, d] [c, d, a] := by
  have h := @List.perm_append_comm Nat [a] [c, d]
  simpa using h

theorem step_parity {s v : PState} (hv : ValidState s) (h : StepOk s v) :
    count_inversions v % 2 = count_inversions s % 2 := by
  obtain ⟨m, hm, rfl⟩ := h
  obtain ⟨b, hbdef⟩ : ∃ b, List.indexOf 0 s = b := ⟨_, rfl⟩
  rw [hbdef] at hm ⊢
  have hlen : s.length = 9 := valid_length hv
  have h0 : s.getD b 0 = 0 := by rw [← hbdef]; exact valid_getD_blank hv
  have hb9 : b < 9 := by rw [← hbdef]; exact valid_blank_lt hv
  have hm9 : m < 9 := MOVES_lt hm
  have hnz : ∀ r, r < 9 → r ≠ b → s.getD r 0 ≠ 0 := by
    intro r hr hrb
    exact valid_getD_ne_blank hv hr (by rw [hbdef]; exact hrb)
  have hinj : ∀ p q, p < 9 → q < 9 → p ≠ q → s.getD p 0 ≠ s.getD q 0 :=
    fun p q hp hq hne => valid_getD_inj hv hp hq hne
  rcases MOVES_diff hm with hd | hd | hd | hd
  · -- m = b + 1 : horizontal move, blank on the left of the swapped pair
    subst hd
    obtain ⟨x, hxv⟩ : ∃ t, s.getD (b + 1) 0 = t := ⟨_, rfl⟩
    have hsp := split_at2 s (show b + 2 ≤ s.length by omega)
    rw [h0, hxv] at hsp
    have hx0 : x ≠ 0 := by
      rw [← hxv]; exact hnz (b + 1) (by omega) (by omega)
    have hP : (s.take b).length = b := by rw [List.length_take]; omega
    have h1 := swap_adj (s.take b) x (s.drop (b + 2))
    rw [hP, ← hsp] at h1
    unfold count_inversions
    rw [h1]
    conv_rhs => rw [hsp]
    rw [List.filter_append, List.filter_append]
    have hf1 : List.filter (fun z => z != 0) (x :: 0 :: s.drop (b + 2)) =
        x :: List.filter (fun z => z != 0) (s.drop (b + 2)) := by
      simp [List.filter_cons, hx0]
    have hf2 : List.filter (fun z => z != 0) (0 :: x :: s.drop (b + 2)) =
        x :: List.filter (fun z => z != 0) (s.drop (b + 2)) := by
      simp [List.filter_cons, hx0]
    rw [hf1, hf2]
  · -- b = m + 1 : horizontal move, blank on the right of the swapped pair
    subst hd
    obtain ⟨x, hxv⟩ : ∃ t, s.getD m 0 = t := ⟨_, rfl⟩
    have hsp := split_at2 s (show m + 2 ≤ s.length by omega)
    rw [h0, hxv] at hsp
    have hx0 : x ≠ 0 := by
      rw [← hxv]; exact hnz m (by omega) (by omega)
    have hP : (s.take m).length = m := by rw [List.length_take]; omega
    have h1 := swap_adj2 (s.take m) x (s.drop (m + 2))
    rw [hP, ← hsp] at h1
    unfold count_inversions
    rw [h1]
    conv_rhs => rw [hsp]
    rw [List.filter_append, List.filter_append]
    have hf1 : List.filter (fun z => z != 0) (0 :: x :: s.drop (m + 2)) =
        x :: List.filter (fun z => z != 0) (s.drop (m + 2)) := by
      simp [List.filter_cons, hx0]
    have hf2 : List.filter (fun z => z != 0) (x :: 0 :: s.drop (m + 2)) =
        x :: List.filter (fun z => z != 0) (s.drop (m + 2)) := by
      simp [List.filter_cons, hx0]
    rw [hf1, hf2]
  · -- m = b + 3 : vertical move, blank above the swapped tile
    subst hd
    obtain ⟨t1, ht1v⟩ : ∃ t, s.getD (b + 1) 0 = t := ⟨_, rfl⟩
    obtain ⟨t2, ht2v⟩ : ∃ t, s.getD (b + 2) 0 = t := ⟨_, rfl⟩
    obtain ⟨x, hxv⟩ : ∃ t, s.getD (b + 3) 0 = t := ⟨_, rfl⟩
    have hsp := split_at4 s (show b + 4 ≤ s.length by omega)
    rw [h0, ht1v, ht2v, hxv] at hsp
    have ht1 : t1 ≠ 0 := by
      rw [← ht1v]; exact hnz (b + 1) (by omega) (by omega)
    have ht2 : t2 ≠ 0 := by
      rw [← ht2v]; exact hnz (b + 2) (by omega) (by omega)
    have hx0 : x ≠ 0 := by
      rw [← hxv]; exact hnz (b + 3) (by omega) (by omega)
    have ht1x : t1 ≠ x := by
      rw [← ht1v, ← hxv]
      exact hinj (b + 1) (b + 3) (by omega) (by omega) (by omega)
    have ht2x : t2 ≠ x := by
      rw [← ht2v, ← hxv]
      exact hinj (b + 2) (b + 3) (by omega) (by omega) (by omega)
    have hP : (s.take b).length = b := by rw [List.length_take]; omega
    have h1 := swap_vert (s.take b) t1 t2 x (s.drop (b + 4))
    rw [hP, ← hsp] at h1
    unfold count_inversions
    rw [h1]
    conv_rhs => rw [hsp]
    rw [List.filter_append, List.filter_append]
    have hf1 : List.filter (fun z => z != 0)
        (x :: t1 :: t2 :: 0 :: s.drop (b + 4)) =
        x :: t1 :: t2 :: List.filter (fun z => z != 0) (s.drop (b + 4)) := by
      simp [List.filter_cons, hx0, ht1, ht2]
    have hf2 : List.filter (fun z => z != 0)
        (0 :: t1 :: t2 :: x :: s.drop (b + 4)) =
        t1 :: t2 :: x :: List.filter (fun z => z != 0) (s.drop (b + 4)) := by
      simp [List.filter_cons, hx0, ht1, ht2]
    rw [hf1, hf2]
    generalize List.filter (fun z => z != 0) (s.take b) = A
    generalize List.filter (fun z => z != 0) (s.drop (b + 4)) = F
    have hmid := invPairs_mid_perm [x, t1, t2] [t1, t2, x] A F
      (perm_rot3 x t1 t2)
    have hg1 : A ++ [x, t1, t2] ++ F = A ++ x :: t1 :: t2 :: F := by simp
    have hg2 : A ++ [t1, t2, x] ++ F = A ++ t1 :: t2 :: x :: F := by simp
    rw [hg1, hg2] at hmid
    have hrot := rot3_parity x t1 t2 ht1x ht2x
    omega
  · -- b = m + 3 : vertical move, blank below the swapped tile
    subst hd
    obtain ⟨x, hxv⟩ : ∃ t, s.getD m 0 = t := ⟨_, rfl⟩
    obtain ⟨t1, ht1v⟩ : ∃ t, s.getD (m + 1) 0 = t := ⟨_, rfl⟩
    obtain ⟨t2, ht2v⟩ : ∃ t, s.getD (m + 2) 0 = t := ⟨_, rfl⟩
    have hsp := split_at4 s (show m + 4 ≤ s.length by omega)
    rw [h0, hxv, ht1v, ht2v] at hsp
    have hx0 : x ≠ 0 := by
      rw [← hxv]; exact hnz m (by omega) (by omega)
    have ht1 : t1 ≠ 0 := by
      rw [← ht1v]; exact hnz (m + 1) (by omega) (by omega)
    have ht2 : t2 ≠ 0 := by
      rw [← ht2v]; exact hnz (m + 2) (by omega) (by omega)
    have ht1x : t1 ≠ x := by
      rw [← ht1v, ← hxv]
      exact hinj (m + 1) m (by omega) (by omega) (by omega)
    have ht2x : t2 ≠ x := by
      rw [← ht2v, ← hxv]
      exact hinj (m + 2) m (by omega) (by omega) (by omega)
    have hP : (s.take m).length = m := by rw [List.length_take]; omega
    have h1 := swap_vert2 (s.take m) x t1 t2 (s.drop (m + 4))
    rw [hP, ← hsp] at h1
    unfold count_inversions
    rw [h1]
    conv_rhs => rw [hsp]
    rw [List.filter_append, List.filter_append]
    have hf1 : List.filter (fun z => z != 0)
        (0 :: t1 :: t2 :: x :: s.drop (m + 4)) =
        t1 :: t2 :: x :: List.filter (fun z => z != 0) (s.drop (m + 4)) := by
      simp [List.filter_cons, hx0, ht1, ht2]
    have hf2 : List.filter (fun z => z != 0)
        (x :: t1 :: t2 :: 0 :: s.drop (m + 4)) =
        x :: t1 :: t2 :: List.filter (fun z => z != 0) (s.drop (m + 4)) := by
      simp [List.filter_cons, hx0, ht1, ht2]
    rw [hf1, hf2]
    generalize List.filter (fun z => z != 0) (s.take m) = A
    generalize List.filter (fun z => z != 0) (s.drop (m + 4)) = F
    have hmid := invPairs_mid_perm [x, t1, t2] [t1, t2, x] A F
      (perm_rot3 x t1 t2)
    have hg1 : A ++ [x, t1, t2] ++ F = A ++ x :: t1 :: t2 :: F := by simp
    have hg2 : A ++ [t1, t2, x] ++ F = A ++ t1 :: t2 :: x :: F := by simp
    rw [hg1, hg2] at hmid
    have hrot := rot3_parity x t1 t2 ht1x ht2x
    omega

theorem reach_parity {n : Nat} {s t : PState} (hv : ValidState s)
    (h : ReachN n s t) : count_inversions t % 2 = count_inversions s % 2 := by
  induction n generalizing s with
  | zero =>
    have : t = s := h
    subst this; rfl
  | succ n ih =>
    obtain ⟨w, hw, hr⟩ := h
    have hst : StepOk s w := mem_pyNeighbors.mp hw
    have hw_valid : ValidState w := stepOk_valid hst hv
    have h1 := step_parity hv hst
    have h2 := ih hw_valid hr
    omega

theorem reachable_parity {s t : PState} (hv : ValidState s)
    (h : Reachable s t) : count_inversions t % 2 = count_inversions s % 2 := by
  obtain ⟨n, hn⟩ := h
  exact reach_parity hv hn

theorem getD_set_ne (l : List Nat) (n a m : Nat) (h : n ≠ m) :
    (l.set n a).getD m 0 = l.getD m 0 := by
  rw [List.getD_eq_getElem?_getD, List.getD_eq_getElem?_getD,
    List.getElem?_set_ne h]

theorem getD_set_self (l : List Nat) (n a : Nat) (h : n < l.length) :
    (l.set n a).getD n 0 = a := by
  rw [List.getD_eq_getElem?_getD, List.getElem?_set_self h]
  rfl

theorem blank_index_eq {s : PState} (hv : ValidState s) {p : Nat} (hp : p < 9)
    (h : s.getD p 0 = 0) : List.indexOf 0 s = p := by
  by_contra hne
  exact valid_getD_ne_blank hv hp (fun he => hne he.symm) h

theorem valid_getD_indexOf {s : PState} (hv : ValidState s) {x : Nat}
    (hx : x < 9) : s.getD (List.indexOf x s) 0 = x := by
  have hm : x ∈ s := (valid_mem_iff hv x).mpr hx
  have hlt := List.indexOf_lt_length.mpr hm
  rw [List.getD_eq_getElem s 0 hlt]
  exact List.getElem_indexOf hlt

theorem indexOf_lt9 {s : PState} (hv : ValidState s) {x : Nat} (hx : x < 9) :
    List.indexOf x s < 9 := by
  have hm : x ∈ s := (valid_mem_iff hv x).mpr hx
  have := List.indexOf_lt_length.mpr hm
  rwa [valid_length hv] at this

theorem getD_lt9 {s : PState} (hv : ValidState s) {p : Nat} (hp : p < 9) :
    s.getD p 0 < 9 := by
  have hpl : p < s.length := by rw [valid_length hv]; exact hp
  rw [List.getD_eq_getElem s 0 hpl]
  exact (valid_mem_iff hv _).mp (List.getElem_mem hpl)

theorem eq_of_len9 (t : List Nat) (h : t.length = 9) :
    t = [t.getD 0 0, t.getD 1 0, t.getD 2 0, t.getD 3 0, t.getD 4 0,
      t.getD 5 0, t.getD 6 0, t.getD 7 0, t.getD 8 0] := by
  rcases t with _ | ⟨a0, _ | ⟨a1, _ | ⟨a2, _ | ⟨a3, _ | ⟨a4, _ | ⟨a5, _ |
    ⟨a6, _ | ⟨a7, _ | ⟨a8, _ | ⟨a9, t⟩⟩⟩⟩⟩⟩⟩⟩⟩⟩ <;>
    simp_all [List.getD_cons_zero, List.getD_cons_succ]

theorem canonical_valid : ValidState canonicalGoal := by decide

theorem reachable_trans {a b c : PState} (h1 : Reachable a b)
    (h2 : Reachable b c) : Reachable a c := by
  obtain ⟨m, hm⟩ := h1
  obtain ⟨n, hn⟩ := h2
  exact ⟨m + n, reachN_trans hm hn⟩

theorem cyc_ok : ∀ i ∈ List.range 6, ∀ j ∈ List.range 8, i < j →
    ∃ e ∈ cyc3Witness, e.1 = (i, j) ∧ PathOk e.2 ∧
      e.2.head? = some canonicalGoal ∧
      e.2.getLast? = some (apply3 canonicalGoal i j (if j = 7 then 6 else 7)) := by
  decide

theorem getD_map_lt (f : Nat → Nat) (l : List Nat) {p : Nat}
    (hp : p < l.length) : (l.map f).getD p 0 = f (l.getD p 0) := by
  have hp2 : p < (l.map f).length := by simpa using hp
  rw [List.getD_eq_getElem _ 0 hp2, List.getD_eq_getElem _ 0 hp]
  simp [List.getElem_map]

theorem stateMap_valid {t : PState} (hv : ValidState t) {c : PState}
    (hc : ValidState c) : ValidState (c.map (stateMap t)) := by
  have hlen : t.length = 9 := valid_length hv
  have hr : List.range 9 = [0, 1, 2, 3, 4, 5, 6, 7, 8] := rfl
  have hmr : List.map (stateMap t) (List.range 9) =
      [t.getD 8 0, t.getD 0 0, t.getD 1 0, t.getD 2 0, t.getD 3 0,
       t.getD 4 0, t.getD 5 0, t.getD 6 0, t.getD 7 0] := by
    rw [hr]; rfl
  have hperm1 : List.Perm (c.map (stateMap t))
      (List.map (stateMap t) (List.range 9)) := hc.map _
  have hperm2 : List.Perm (List.map (stateMap t) (List.range 9)) t := by
    rw [hmr]
    conv_rhs => rw [eq_of_len9 t hlen]
    have h := @List.perm_append_comm Nat [t.getD 8 0]
      [t.getD 0 0, t.getD 1 0, t.getD 2 0, t.getD 3 0, t.getD 4 0,
       t.getD 5 0, t.getD 6 0, t.getD 7 0]
    simpa using h
  exact (hperm1.trans hperm2).trans hv

theorem stateMap_zero {t : PState} (h8 : t.getD 8 0 = 0) : stateMap t 0 = 0 :=
  h8

theorem indexOf_map_stateMap {t : PState} (hv : ValidState t)
    (h8 : t.getD 8 0 = 0) {c : PState} (hc : ValidState c) :
    List.indexOf 0 (c.map (stateMap t)) = List.indexOf 0 c := by
  have hvm : ValidState (c.map (stateMap t)) := stateMap_valid hv hc
  have hb9 : List.indexOf 0 c < 9 := valid_blank_lt hc
  apply blank_index_eq hvm hb9
  have hbl : List.indexOf 0 c < c.length := by
    rw [valid_length hc]; exact hb9
  rw [getD_map_lt _ _ hbl, valid_getD_blank hc, stateMap_zero h8]

theorem map_swapIdx {t : PState} {c : PState} {i j : Nat}
    (hi : i < c.length) (hj : j < c.length) :
    (swapIdx c i j).map (stateMap t) = swapIdx (c.map (stateMap t)) i j := by
  unfold swapIdx
  rw [List.map_set, List.map_set, ← getD_map_lt (stateMap t) c hi,
    ← getD_map_lt (stateMap t) c hj]

theorem step_map {t c v : PState} (hv : ValidState t) (h8 : t.getD 8 0 = 0)
    (hc : ValidState c) (h : StepOk c v) :
    StepOk (c.map (stateMap t)) (v.map (stateMap t)) := by
  obtain ⟨m, hm, rfl⟩ := h
  have hb9 : List.indexOf 0 c < 9 := valid_blank_lt hc
  have hm9 : m < 9 := MOVES_lt hm
  have hbl : List.indexOf 0 c < c.length := by rw [valid_length hc]; exact hb9
  have hml : m < c.length := by rw [valid_length hc]; exact hm9
  refine ⟨m, ?_, ?_⟩
  · rw [indexOf_map_stateMap hv h8 hc]; exact hm
  · rw [indexOf_map_stateMap hv h8 hc, ← map_swapIdx hbl hml]

theorem reachN_map {t : PState} (hv : ValidState t) (h8 : t.getD 8 0 = 0) :
    ∀ {n : Nat} {c d : PState}, ValidState c → ReachN n c d →
      ReachN n (c.map (stateMap t)) (d.map (stateMap t)) := by
  intro n
  induction n with
  | zero =>
    intro c d hc h
    have hdc : d = c := h
    subst hdc
    rfl
  | succ n ih =>
    intro c d hc h
    obtain ⟨w, hw, hr⟩ := h
    have hst : StepOk c w := mem_pyNeighbors.mp hw
    exact ⟨w.map (stateMap t), mem_pyNeighbors.mpr (step_map hv h8 hc hst),
      ih (stepOk_valid hst hc) hr⟩

theorem map_canonical {t : PState} (hlen : t.length = 9) :
    canonicalGoal.map (stateMap t) = t := by
  conv_rhs => rw [eq_of_len9 t hlen]
  rfl

theorem stateMap_canonical_getD {t : PState} (j : Nat) (hj : j < 9) :
    stateMap t (canonicalGoal.getD j 0) = t.getD j 0 := by
  interval_cases j <;> rfl

theorem map_apply3 {t : PState} (hlen : t.length = 9) {i j k : Nat}
    (hi : i < 9) (hj : j < 9) (hk : k < 9) :
    (apply3 canonicalGoal i j k).map (stateMap t) = apply3 t i j k := by
  unfold apply3
  rw [List.map_set, List.map_set, List.map_set,
    stateMap_canonical_getD i hi, stateMap_canonical_getD j hj,
    stateMap_canonical_getD k hk, map_canonical hlen]

theorem gen3_reach {t : PState} (hv : ValidState t) (h8 : t.getD 8 0 = 0)
    {i j : Nat} (hi : i < 6) (hij : i < j) (hj : j < 8) :
    Reachable t (apply3 t i j (if j = 7 then 6 else 7)) := by
  obtain ⟨e, he, he1, hpath, hhead, hlast⟩ :=
    cyc_ok i (List.mem_range.mpr hi) j (List.mem_range.mpr hj) hij
  have hr : ReachN (e.2.length - 1) canonicalGoal
      (apply3 canonicalGoal i j (if j = 7 then 6 else 7)) :=
    reachN_of_path hpath hhead hlast
  have hrm := reachN_map hv h8 canonical_valid hr
  rw [map_canonical (valid_length hv),
    map_apply3 (valid_length hv) (by omega) (by omega)
      (show (if j = 7 then 6 else 7) < 9 by split <;> omega)] at hrm
  exact ⟨_, hrm⟩

theorem blank_to_8 : ∀ (d : Nat) (t : PState), ValidState t →
    8 ≤ List.indexOf 0 t + d → ∃ u, Reachable t u ∧ u.getD 8 0 = 0 := by
  intro d
  induction d with
  | zero =>
    intro t hv hle
    have h8 : List.indexOf 0 t = 8 := by
      have := valid_blank_lt hv
      omega
    exact ⟨t, ⟨0, rfl⟩, by rw [← h8]; exact valid_getD_blank hv⟩
  | succ d ih =>
    intro t hv hle
    by_cases hb : List.indexOf 0 t = 8
    · exact ⟨t, ⟨0, rfl⟩, by rw [← hb]; exact valid_getD_blank hv⟩
    · obtain ⟨b, hbdef⟩ : ∃ b, List.indexOf 0 t = b := ⟨_, rfl⟩
      have hb9 : b < 9 := by rw [← hbdef]; exact valid_blank_lt hv
      have hb8 : b < 8 := by
        rcases Nat.lt_or_ge b 8 with h | h
        · exact h
        · exact absurd (by omega : b = 8) (fun he => hb (hbdef.trans he))
      have hex : ∃ m, m ∈ MOVES b ∧ b < m := by interval_cases b <;> decide
      obtain ⟨m, hm, hbm⟩ := hex
      have hm9 : m < 9 := MOVES_lt hm
      have hst : StepOk t (swapIdx t b m) :=
        ⟨m, by rw [hbdef]; exact hm, by rw [hbdef]⟩
      have hvv : ValidState (swapIdx t b m) := stepOk_valid hst hv
      have hbv : List.indexOf 0 (swapIdx t b m) = m := by
        apply blank_index_eq hvv hm9
        have hbl : b < t.length := by rw [valid_length hv]; exact hb9
        have hml : m < t.length := by rw [valid_length hv]; exact hm9
        rw [getD_swapIdx t hbl hml m, if_pos rfl, ← hbdef]
        exact valid_getD_blank hv
      obtain ⟨u, huu, hu8⟩ := ih (swapIdx t b m) hvv (by rw [hbv]; omega)
      exact ⟨u, reachable_trans ⟨1, reachN_step hst⟩ huu, hu8⟩

theorem sort_reach : ∀ (d : Nat) (t : PState), ValidState t → t.getD 8 0 = 0 →
    count_inversions t % 2 = 0 → (∀ p, p < 8 - d → t.getD p 0 = p + 1) →
    Reachable t canonicalGoal := by
  intro d
  induction d with
  | zero =>
    intro t hv h8 _ hfix
    have ht : t = canonicalGoal := by
      rw [eq_of_len9 t (valid_length hv), hfix 0 (by omega), hfix 1 (by omega),
        hfix 2 (by omega), hfix 3 (by omega), hfix 4 (by omega),
        hfix 5 (by omega), hfix 6 (by omega), hfix 7 (by omega), h8]
      decide
    rw [ht]
    exact ⟨0, rfl⟩
  | succ d ih =>
    intro t hv h8 he hfix
    obtain ⟨i, hidef⟩ : ∃ i, 8 - (d + 1) = i := ⟨_, rfl⟩
    rw [hidef] at hfix
    have hi8 : i ≤ 7 := by omega
    have hb : List.indexOf 0 t = 8 := blank_index_eq hv (by omega) h8
    by_cases hc : t.getD i 0 = i + 1
    · apply ih t hv h8 he
      intro p hp
      rcases Nat.lt_or_ge p i with hpi | hpi
      · exact hfix p hpi
      · have hpe : p = i := by omega
        rw [hpe]
        exact hc
    · have hi7 : i ≠ 7 := by
        intro h7
        subst h7
        have h79 : t.getD 7 0 < 9 := getD_lt9 hv (by omega)
        have h7nz : t.getD 7 0 ≠ 0 :=
          valid_getD_ne_blank hv (by omega) (by rw [hb]; omega)
        have hne : ∀ p, p < 7 → t.getD 7 0 ≠ p + 1 := by
          intro p hp
          have hj := valid_getD_inj hv (show (7 : Nat) < 9 by omega)
            (show p < 9 by omega) (by omega)
          rw [hfix p hp] at hj
          exact hj
        have h78 : t.getD 7 0 = 8 := by
          rcases Nat.lt_or_ge (t.getD 7 0) 8 with hlt | hge
          · exfalso
            have h1 := hne (t.getD 7 0 - 1) (by omega)
            omega
          · omega
        exact hc (by omega)
      have hi6 : i ≠ 6 := by
        intro h6
        subst h6
        have h69 : t.getD 6 0 < 9 := getD_lt9 hv (by omega)
        have h6nz : t.getD 6 0 ≠ 0 :=
          valid_getD_ne_blank hv (by omega) (by rw [hb]; omega)
        have hne6 : ∀ p, p < 6 → t.getD 6 0 ≠ p + 1 := by
          intro p hp
          have hj := valid_getD_inj hv (show (6 : Nat) < 9 by omega)
            (show p < 9 by omega) (by omega)
          rw [hfix p hp] at hj
          exact hj
        have h68 : t.getD 6 0 = 8 := by
          rcases Nat.lt_or_ge (t.getD 6 0) 8 with hlt | hge
          · exfalso
            have h1 := hne6 (t.getD 6 0 - 1) (by omega)
            omega
          · omega
        have h79 : t.getD 7 0 < 9 := getD_lt9 hv (by omega)
        have h7nz : t.getD 7 0 ≠ 0 :=
          valid_getD_ne_blank hv (by omega) (by rw [hb]; omega)
        have hne7 : ∀ p, p < 6 → t.getD 7 0 ≠ p + 1 := by
          intro p hp
          have hj := valid_getD_inj hv (show (7 : Nat) < 9 by omega)
            (show p < 9 by omega) (by omega)
          rw [hfix p hp] at hj
          exact hj
        have h768 : t.getD 7 0 ≠ 8 := by
          have hj := valid_getD_inj hv (show (7 : Nat) < 9 by omega)
            (show (6 : Nat) < 9 by omega) (by omega)
          rw [h68] at hj
          exact hj
        have h77 : t.getD 7 0 = 7 := by
          rcases Nat.lt_or_ge (t.getD 7 0) 8 with hlt | hge
          · rcases Nat.lt_or_ge (t.getD 7 0) 7 with hlt7 | hge7
            · exfalso
              have h1 := hne7 (t.getD 7 0 - 1) (by omega)
              omega
            · omega
          · omega
        have ht : t = [1, 2, 3, 4, 5, 6, 8, 7, 0] := by
          rw [eq_of_len9 t (valid_length hv), hfix 0 (by omega),
            hfix 1 (by omega), hfix 2 (by omega), hfix 3 (by omega),
            hfix 4 (by omega), hfix 5 (by omega), h68, h77, h8]
        rw [ht] at he
        exact absurd he (by decide)
      have hi5 : i < 6 := by omega
      obtain ⟨j, hjdef⟩ : ∃ j, List.indexOf (i + 1) t = j := ⟨_, rfl⟩
      have hji : t.getD j 0 = i + 1 := by
        rw [← hjdef]; exact valid_getD_indexOf hv (by omega)
      have hj9 : j < 9 := by rw [← hjdef]; exact indexOf_lt9 hv (by omega)
      have hj8 : j ≠ 8 := by
        intro hj
        rw [hj, h8] at hji
        exact absurd hji (by omega)
      have hjne : j ≠ i := by
        intro hj
        rw [hj] at hji
        exact hc hji
      have hjgt : i < j := by
        rcases Nat.lt_or_ge j i with hlt | hge
        · exfalso
          have hj1 := hfix j hlt
          omega
        · omega
      have hj7 : j < 8 := by omega
      have hr := gen3_reach hv h8 hi5 hjgt hj7
      obtain ⟨u, hudef⟩ :
          ∃ u, apply3 t i j (if j = 7 then 6 else 7) = u := ⟨_, rfl⟩
      rw [hudef] at hr
      obtain ⟨n, hn⟩ := hr
      have hvu : ValidState u := reachN_valid hn hv
      obtain ⟨k, hkd⟩ : ∃ k, (if j = 7 then 6 else 7) = k := ⟨_, rfl⟩
      have hk67 : k = 6 ∨ k = 7 := by
        by_cases hje : j = 7
        · left; rw [if_pos hje] at hkd; omega
        · right; rw [if_neg hje] at hkd; omega
      have hkj : k ≠ j := by
        by_cases hje : j = 7
        · rw [if_pos hje] at hkd; omega
        · rw [if_neg hje] at hkd; omega
      have hki : k ≠ i := by omega
      rw [hkd] at hudef
      have hu8 : u.getD 8 0 = 0 := by
        rw [← hudef]
        unfold apply3
        rw [getD_set_ne _ _ _ _ (show k ≠ 8 by omega),
          getD_set_ne _ _ _ _ (show j ≠ 8 by omega),
          getD_set_ne _ _ _ _ (show i ≠ 8 by omega)]
        exact h8
      have hfixu : ∀ p, p < 8 - d → u.getD p 0 = p + 1 := by
        intro p hp
        have hpi : p ≤ i := by omega
        rcases Nat.lt_or_eq_of_le hpi with hplt | hpeq
        · rw [← hudef]
          unfold apply3
          rw [getD_set_ne _ _ _ _ (show k ≠ p by omega),
            getD_set_ne _ _ _ _ (show j ≠ p by omega),
            getD_set_ne _ _ _ _ (show i ≠ p by omega)]
          exact hfix p hplt
        · subst hpeq
          rw [← hudef]
          unfold apply3
          rw [getD_set_ne _ _ _ _ (show k ≠ p by omega),
            getD_set_ne _ _ _ _ (show j ≠ p by omega),
            getD_set_self _ _ _ (show p < t.length by
              rw [valid_length hv]; omega)]
          exact hji
      have heu : count_inversions u % 2 = 0 := by
        have hp := reach_parity hv hn
        omega
      have hru := ih u hvu hu8 heu hfixu
      exact reachable_trans ⟨n, hn⟩ hru

theorem reach_to_even {s : PState} (hv : ValidState s)
    (h : Reachable s canonicalGoal) : count_inversions s % 2 = 0 := by
  have hp := reachable_parity hv h
  have hc : count_inversions canonicalGoal = 0 := by decide
  omega

theorem even_to_reach {s : PState} (hv : ValidState s)
    (he : count_inversions s % 2 = 0) : Reachable s canonicalGoal := by
  obtain ⟨u, hsu, hu8⟩ := blank_to_8 9 s hv (by omega)
  have hvu : ValidState u := by
    obtain ⟨n, hn⟩ := hsu
    exact reachN_valid hn hv
  have heu : count_inversions u % 2 = 0 := by
    have := reachable_parity hv hsu
    omega
  have hru := sort_reach 8 u hvu hu8 heu (fun p hp => absurd hp (by omega))
  exact reachable_trans hsu hru

theorem is_solvable_iff_even (s : PState) :
    is_solvable s = true ↔ count_inversions s % 2 = 0 := by
  simp [is_solvable]

/-- C5: for every valid state `s`, `is_solvable s` returns `true` exactly
when the inversion count of `s` is even, and that verdict decides
reachability of the canonical goal `(1,2,3,4,5,6,7,8,0)` from `s` by legal
blank moves; in particular, the state `(1,2,3,4,5,6,8,7,0)` has inversion
count 1 and `is_solvable` reports `false` on it. -/
theorem claim_C5 (s : PState) (hs : ValidState s) :
    (is_solvable s = true ↔ count_inversions s % 2 = 0) ∧
    (is_solvable s = true ↔ Reachable s canonicalGoal) ∧
    count_inversions [1, 2, 3, 4, 5, 6, 8, 7, 0] = 1 ∧
    is_solvable [1, 2, 3, 4, 5, 6, 8, 7, 0] = false := by
  refine ⟨is_solvable_iff_even s, ?_, by decide, by decide⟩
  constructor
  · intro h
    exact even_to_reach hs ((is_solvable_iff_even s).mp h)
  · intro h
    exact (is_solvable_iff_even s).mpr (reach_to_even hs h)

theorem claim_C5_witness :
    ValidState canonicalGoal ∧
    ((is_solvable canonicalGoal = true ↔
        count_inversions canonicalGoal % 2 = 0) ∧
      (is_solvable canonicalGoal = true ↔
        Reachable canonicalGoal canonicalGoal) ∧
      count_inversions [1, 2, 3, 4, 5, 6, 8, 7, 0] = 1 ∧
      is_solvable [1, 2, 3, 4, 5, 6, 8, 7, 0] = false) :=
  ⟨by decide, claim_C5 canonicalGoal (by decide)⟩
